import Mathlib

/-!
# Verification of the dayrally workspace data engine

This file gives a shallow embedding, in Lean 4, of the date arithmetic,
recurrence engine, rollover engine, task-table operations and migration
runner of the `dayrally` repository (`src-tauri/src/repository.rs`,
`src-tauri/src/services/recurrence.rs`, `src-tauri/src/services/rollover.rs`,
`src-tauri/src/db.rs`), together with proofs and refutations of the
behavioural claims stated for it.

Dates are modelled as year/month/day triples in the proleptic Gregorian
calendar (the semantics of `chrono::NaiveDate`); day-level arithmetic
(`+ Duration::days(n)`, date subtraction, weekday) is interpreted through
an auxiliary rata-die day count `toRataDie`. The SQLite task table is
modelled as a list of rows; clock readings (`Local::now`, `Utc::now`) and
UUID generation are threaded as explicit parameters, following the spec's
own advice to treat "now" as an input.
-/

namespace DayRally

/-! ## Calendar core (semantics of `chrono::NaiveDate`) -/

/-- Proleptic Gregorian leap-year test. -/
def isLeapYear (y : Int) : Bool := y % 4 == 0 && (y % 100 != 0 || y % 400 == 0)

/-- Number of days in month `m` (1–12) of year `y`; 0 for out-of-range months. -/
def daysInMonth (y : Int) (m : Nat) : Nat :=
  match m with
  | 1 => 31
  | 2 => if isLeapYear y then 29 else 28
  | 3 => 31
  | 4 => 30
  | 5 => 31
  | 6 => 30
  | 7 => 31
  | 8 => 31
  | 9 => 30
  | 10 => 31
  | 11 => 30
  | 12 => 31
  | _ => 0

/-- A calendar date: the value space of `chrono::NaiveDate`. -/
structure Date where
  year : Int
  month : Nat
  day : Nat
deriving DecidableEq

/-- A date is valid when its month is 1–12 and its day exists in that month. -/
def Date.Valid (d : Date) : Prop :=
  1 ≤ d.month ∧ d.month ≤ 12 ∧ 1 ≤ d.day ∧ d.day ≤ daysInMonth d.year d.month

instance (d : Date) : Decidable d.Valid := by unfold Date.Valid; infer_instance

theorem valid_mk {y : Int} {m d : Nat} (h1 : 1 ≤ m) (h2 : m ≤ 12) (h3 : 1 ≤ d)
    (h4 : d ≤ daysInMonth y m) : Date.Valid ⟨y, m, d⟩ := ⟨h1, h2, h3, h4⟩

/-- Chronological order on dates (the `Ord` instance of `chrono::NaiveDate`). -/
def Date.lt (a b : Date) : Prop :=
  a.year < b.year ∨
    (a.year = b.year ∧ (a.month < b.month ∨ (a.month = b.month ∧ a.day < b.day)))

instance (a b : Date) : Decidable (Date.lt a b) := by unfold Date.lt; infer_instance

/-- `a ≤ b` chronologically. -/
def Date.le (a b : Date) : Prop := Date.lt a b ∨ a = b

instance (a b : Date) : Decidable (Date.le a b) := by unfold Date.le; infer_instance

/-- The calendar successor of a date (the semantics of `d + Duration::days(1)`). -/
def nextDay (d : Date) : Date :=
  if d.day < daysInMonth d.year d.month then ⟨d.year, d.month, d.day + 1⟩
  else if d.month < 12 then ⟨d.year, d.month + 1, 1⟩
  else ⟨d.year + 1, 1, 1⟩

/-- The calendar predecessor of a date (the semantics of `d - Duration::days(1)`). -/
def prevDay (d : Date) : Date :=
  if 1 < d.day then ⟨d.year, d.month, d.day - 1⟩
  else if 1 < d.month then ⟨d.year, d.month - 1, daysInMonth d.year (d.month - 1)⟩
  else ⟨d.year - 1, 12, 31⟩

/-- `d + Duration::days(n)` for a signed day count. -/
def addDays (d : Date) (n : Int) : Date :=
  if 0 ≤ n then nextDay^[n.toNat] d else prevDay^[(-n).toNat] d

/-- Days of year `y` that lie strictly before month `m` (cumulative month lengths). -/
def daysBeforeMonth (y : Int) : Nat → Nat
  | 0 => 0
  | m + 1 => daysBeforeMonth y m + daysInMonth y m

/-- Rata-die day number: `⟨1, 1, 1⟩ ↦ 1`, increasing by one per calendar day.
This is the auxiliary day count used to interpret date subtraction and weekdays. -/
def toRataDie (d : Date) : Int :=
  365 * (d.year - 1) + (d.year - 1) / 4 - (d.year - 1) / 100 + (d.year - 1) / 400
    + (daysBeforeMonth d.year d.month : Int) + (d.day : Int)

/-- Signed day difference `(a - b).num_days()` of `chrono` date subtraction. -/
def dateDiff (a b : Date) : Int := toRataDie a - toRataDie b

/-- `Weekday::num_days_from_monday()` (Monday = 0 … Sunday = 6). -/
def numDaysFromMonday (d : Date) : Int := (toRataDie d + 6) % 7

/-- The `chrono::Weekday` enumeration. -/
inductive Wd
  | mon | tue | wed | thu | fri | sat | sun
deriving DecidableEq

/-- `num_days_from_monday` of an abstract weekday. -/
def Wd.ndfm : Wd → Nat
  | .mon => 0 | .tue => 1 | .wed => 2 | .thu => 3 | .fri => 4 | .sat => 5 | .sun => 6

/-- Weekday from its Monday-based index. -/
def wdOfNum (n : Nat) : Wd :=
  match n with
  | 0 => .mon | 1 => .tue | 2 => .wed | 3 => .thu | 4 => .fri | 5 => .sat | _ => .sun

/-- `NaiveDate::weekday()`. -/
def Date.weekday (d : Date) : Wd := wdOfNum (numDaysFromMonday d).toNat

/-! ## String helpers (Rust `str::trim`, `str::to_lowercase`, CSV splitting) -/

/-- Rust `str::trim`: drop whitespace from both ends of a character list. -/
def trimChars (l : List Char) : List Char :=
  ((l.dropWhile Char.isWhitespace).reverse.dropWhile Char.isWhitespace).reverse

/-- `str::trim` on strings. -/
def strTrim (s : String) : String := ⟨trimChars s.data⟩

/-- `str::to_lowercase` on strings. -/
def strToLower (s : String) : String := ⟨s.data.map Char.toLower⟩

/-- Lexicographic order on character lists (SQLite compares TEXT values with
`memcmp`, which on the ASCII `YYYY-MM-DD` strings used here is exactly this
codepoint-lexicographic order). -/
def charListLt : List Char → List Char → Bool
  | [], [] => false
  | [], _ :: _ => true
  | _ :: _, [] => false
  | a :: as, b :: bs => if a < b then true else if b < a then false else charListLt as bs

/-- SQLite's TEXT `<` on the date strings of this program. -/
def strLt (s t : String) : Bool := charListLt s.data t.data

/-- Rust `str::split(sep)`: the fragments between occurrences of a separator
character (empty fragments included, as in Rust). -/
def splitOnChar (sep : Char) : List Char → List (List Char)
  | [] => [[]]
  | c :: rest =>
    let r := splitOnChar sep rest
    if c = sep then [] :: r
    else
      match r with
      | [] => [[c]]
      | h :: t => (c :: h) :: t

/-! ## The task row (struct `Task` of `repository.rs`, mirroring the `tasks` table) -/

structure Task where
  id : String
  title : String
  notes : Option String
  tags : List String
  target_date : String
  status : String
  progress_percent : Int
  deadline_at : Option String
  is_recurring : Bool
  recurrence_type : Option String
  recurrence_interval : Option Int
  recurrence_weekdays : Option String
  timer_enabled : Bool
  timer_minutes : Option Int
  timer_state : Option String
  timer_ends_at : Option String
  rolled_over : Bool
  rolled_from_date : Option String
  sort_order : Int
  created_at : String
  updated_at : String
deriving DecidableEq

/-! ## Recurrence engine -/

/-- `repository.rs::parse_weekdays_csv`: weekday names recognised by the parser. -/
def weekdayOfName (s : String) : Option Wd :=
  if s = "Mon" then some .mon
  else if s = "Tue" then some .tue
  else if s = "Wed" then some .wed
  else if s = "Thu" then some .thu
  else if s = "Fri" then some .fri
  else if s = "Sat" then some .sat
  else if s = "Sun" then some .sun
  else none

/-- `repository.rs::parse_weekdays_csv`. -/
def parse_weekdays_csv (value : Option String) : List Wd :=
  match value with
  | none => []
  | some csv =>
    (splitOnChar ',' csv.data).filterMap (fun part => weekdayOfName (strTrim ⟨part⟩))

/-- Validity test of `NaiveDate::from_ymd_opt(y, m, d)`. -/
def ymdValid (y : Int) (m d : Nat) : Bool :=
  decide (1 ≤ m) && decide (m ≤ 12) && decide (1 ≤ d) && decide (d ≤ daysInMonth y m)

/-- First `while` loop of `repository.rs::add_months_keep_day` (and the single
month-normalisation loop of the service's monthly branch): reduce the month
below 13, carrying into the year. -/
def monthsUp (y m : Int) : Int × Int :=
  if 12 < m then monthsUp (y + 1) (m - 12) else (y, m)
termination_by m.toNat
decreasing_by omega

/-- Second `while` loop of `repository.rs::add_months_keep_day`: raise the month
above 0, borrowing from the year. -/
def monthsDown (y m : Int) : Int × Int :=
  if m ≤ 0 then monthsDown (y - 1) (m + 12) else (y, m)
termination_by (1 - m).toNat
decreasing_by omega

/-- The descending `fallback_day` loop of `repository.rs::add_months_keep_day`. -/
def fallbackScan (y : Int) (m : Nat) : Nat → Option Date
  | 0 => none
  | 1 => none
  | fd + 2 =>
    if ymdValid y m (fd + 1) then some ⟨y, m, fd + 1⟩ else fallbackScan y m (fd + 1)

/-- `repository.rs::add_months_keep_day`. -/
def add_months_keep_day (base : Date) (interval : Int) : Date :=
  let p1 := monthsUp base.year ((base.month : Int) + interval)
  let p2 := monthsDown p1.1 p1.2
  let year := p2.1
  let month_u := p2.2.toNat
  let day := base.day
  if ymdValid year month_u day then ⟨year, month_u, day⟩
  else
    match fallbackScan year month_u day with
    | some date => date
    | none => base

/-- `cursor - Duration::days(cursor.weekday().num_days_from_monday())`. -/
def weekStart (c : Date) : Date := addDays c (-(numDaysFromMonday c))

/-- The candidate test inside the repo's weekly scan: the Monday-aligned
whole-week distance is a multiple of the interval (Rust `/` and `%` on `i64`
truncate toward zero) and the weekday is in the configured set. -/
def weeklyPred (weekdays : List Wd) (interval : Int) (originWeekStart cursor : Date) : Bool :=
  (Int.tmod (Int.tdiv (dateDiff (weekStart cursor) originWeekStart) 7) interval == 0)
    && weekdays.contains cursor.weekday

/-- The bounded `for _ in 0..500` scan of `repository.rs::next_occurrence_date`. -/
def weeklyScan (weekdays : List Wd) (interval : Int) (ows : Date) :
    Nat → Date → Option Date
  | 0, _ => none
  | fuel + 1, cursor =>
    if weeklyPred weekdays interval ows cursor then some cursor
    else weeklyScan weekdays interval ows fuel (nextDay cursor)

/-- `repository.rs::next_occurrence_date` (the Rust `match` on
`recurrence_type.as_deref()` is written as the equivalent chain of
string-equality tests). -/
def next_occurrence_date (task : Task) (from_ : Date) : Date :=
  let interval : Int := max (task.recurrence_interval.getD 1) 1
  if task.recurrence_type = some "daily" then addDays from_ interval
  else if task.recurrence_type = some "weekly" then
    let weekdays := parse_weekdays_csv task.recurrence_weekdays
    if weekdays.isEmpty then addDays from_ (interval * 7)
    else
      let ows := weekStart from_
      match weeklyScan weekdays interval ows 500 (addDays from_ 1) with
      | some c => c
      | none => addDays from_ (interval * 7)
  else if task.recurrence_type = some "monthly" then add_months_keep_day from_ interval
  else from_

/-- `services/recurrence.rs::RecurrenceRule` (weekday rules identified with
`chrono::Weekday` through the `from_weekday`/`to_weekday` bijection). -/
inductive RecurrenceRule
  | daily (interval : Int)
  | weekly (interval : Int) (weekdays : Option (List Wd))
  | monthly (interval : Int)
deriving DecidableEq

/-- The unbounded `loop` of the service's weekly branch, with explicit fuel;
`none` represents a run that is still looping after `fuel` iterations. -/
def serviceWeeklyLoop (allowed : List Wd) (interval : Int) (from_ : Date) :
    Nat → Date → Option Date
  | 0, _ => none
  | fuel + 1, date =>
    if allowed.contains date.weekday then some date
    else
      let date' := nextDay date
      if 7 * interval ≤ dateDiff date' from_ then some date'
      else serviceWeeklyLoop allowed interval from_ fuel date'

/-- `services/recurrence.rs::next_occurrence`. Only the weekly branch loops,
so only it consumes fuel; the monthly branch shares the `month > 12`
normalisation loop shape with `monthsUp`. -/
def next_occurrence (fuel : Nat) (rule : RecurrenceRule) (from_ : Date) : Option Date :=
  match rule with
  | .daily interval => some (addDays from_ interval)
  | .weekly interval weekdays =>
    let start := addDays from_ 1
    let allowed := weekdays.getD [from_.weekday]
    serviceWeeklyLoop allowed interval from_ fuel start
  | .monthly interval =>
    let p := monthsUp from_.year ((from_.month : Int) + interval)
    let year := p.1
    let month := p.2.toNat
    let day := from_.day
    some (if ymdValid year month day then ⟨year, month, day⟩
          else if ymdValid year (month + 1) 1 then prevDay ⟨year, month + 1, 1⟩
          else from_)

/-- Spec-side reading (§4.4 of the spec) of the weekly candidate condition: the
candidate's weekday is in the configured set, and the Monday-aligned whole-week
distance between the candidate's week and the anchor's week is a multiple of
the interval. -/
def weeklyCandidate (weekdays : List Wd) (interval : Int) (anchor c : Date) : Prop :=
  c.weekday ∈ weekdays ∧
    interval ∣ Int.tdiv (dateDiff (weekStart c) (weekStart anchor)) 7

/-- The `while date < today_date` catch-up loop of
`repository.rs::ensure_recurrences`, with explicit fuel; `none` represents a
run that is still looping after `fuel` iterations. -/
def catchUp (task : Task) (today : Date) : Nat → Date → Option Date
  | 0, date => if Date.lt date today then none else some date
  | fuel + 1, date =>
    if Date.lt date today then catchUp task today fuel (next_occurrence_date task date)
    else some date

/-- Index (1-based offset in days) of the first day strictly after `d`, within
the next `n` days, whose weekday lies in `S`. Auxiliary for relating the two
weekly scans. -/
def firstHit (S : List Wd) (d : Date) : Nat → Option Nat
  | 0 => none
  | n + 1 =>
    match firstHit S d n with
    | some k => some k
    | none => if (nextDay^[n + 1] d).weekday ∈ S then some (n + 1) else none

/-- A task row carrying given recurrence fields and neutral values elsewhere
(used to build concrete instances). -/
def mkRecurring (ty : Option String) (interval : Option Int) (weekdays : Option String) :
    Task :=
  { id := "t1", title := "T", notes := none, tags := [], target_date := "2026-02-06",
    status := "todo", progress_percent := 0, deadline_at := none, is_recurring := true,
    recurrence_type := ty, recurrence_interval := interval,
    recurrence_weekdays := weekdays, timer_enabled := false, timer_minutes := none,
    timer_state := none, timer_ends_at := none, rolled_over := false,
    rolled_from_date := none, sort_order := 1, created_at := "", updated_at := "" }

/-! ## Tag normalisation (`repository.rs::normalize_task_tags`) -/

/-- The iteration of `normalize_task_tags`: trim each tag, drop empties, and
keep a tag only when its lowercased key has not been seen (the Rust `HashSet`
of keys is modelled as the list of keys inserted so far). -/
def normalizeTagsGo : List String → List String → List String
  | [], _ => []
  | t :: ts, seen =>
    let tr := strTrim t
    if tr = "" then normalizeTagsGo ts seen
    else
      let key := strToLower tr
      if key ∈ seen then normalizeTagsGo ts seen
      else tr :: normalizeTagsGo ts (key :: seen)

/-- `repository.rs::normalize_task_tags`. -/
def normalize_task_tags (tags : List String) : List String := normalizeTagsGo tags []

/-- Spec-side reading (§4.2): deduplicate a list case-insensitively, keeping
the casing and position of each key's first occurrence. -/
def firstOccurrenceDedup : List String → List String → List String
  | [], _ => []
  | t :: ts, seen =>
    if strToLower t ∈ seen then firstOccurrenceDedup ts seen
    else t :: firstOccurrenceDedup ts (strToLower t :: seen)

/-! ## Date strings (`%Y-%m-%d` parsing and formatting) -/

/-- Decimal digits to a number, `none` if empty or non-digit. -/
def parseDigits (l : List Char) : Option Nat :=
  if l.isEmpty then none
  else if l.all Char.isDigit then
    some (l.foldl (fun acc c => acc * 10 + (c.toNat - 48)) 0)
  else none

/-- `NaiveDate::parse_from_str(value, "%Y-%m-%d")`: four digit year, two digit
month and day, validated as a calendar date. -/
def parse_date (value : String) : Option Date :=
  match splitOnChar '-' value.data with
  | [ys, ms, ds] =>
    if ys.length = 4 ∧ ms.length = 2 ∧ ds.length = 2 then
      match parseDigits ys, parseDigits ms, parseDigits ds with
      | some y, some m, some d =>
        if ymdValid (y : Int) m d then some ⟨(y : Int), m, d⟩ else none
      | _, _, _ => none
    else none
  | _ => none

/-- Zero-pad to two digits. -/
def pad2 (n : Nat) : String := if n < 10 then "0" ++ toString n else toString n

/-- Zero-pad to four digits (years in this model are CE). -/
def pad4 (n : Nat) : String :=
  if n < 10 then "000" ++ toString n
  else if n < 100 then "00" ++ toString n
  else if n < 1000 then "0" ++ toString n
  else toString n

/-- `date.format("%Y-%m-%d")`. -/
def format_date (d : Date) : String :=
  pad4 d.year.toNat ++ "-" ++ pad2 d.month ++ "-" ++ pad2 d.day

/-! ## The tasks table and its operations

The `tasks` table is a list of rows; `SELECT ... WHERE id = ?` is `findById`
(first match, as `query_row` returns the first row) and `UPDATE ... WHERE
id = ?` maps the update over every row with that id (the primary key makes it
at most one in a well-formed table). SQLite compares TEXT with `memcmp`, which
on the ASCII `YYYY-MM-DD` strings used here coincides with Lean's string
order `<`. -/

/-- `SELECT ... WHERE id = ?` via `query_row`. -/
def findById (db : List Task) (id : String) : Option Task :=
  db.find? (fun t => t.id == id)

/-- `UPDATE ... WHERE id = ?`. -/
def updateById (db : List Task) (id : String) (g : Task → Task) : List Task :=
  db.map (fun t => if t.id == id then g t else t)

/-- `repository.rs::next_sort_order`:
`SELECT COALESCE(MAX(sort_order), 0) + 1 ... WHERE target_date = ? AND rolled_over = ?`. -/
def next_sort_order (db : List Task) (target_date : String) (rolled_over : Bool) : Int :=
  (match (db.filter (fun t =>
      t.target_date == target_date && t.rolled_over == rolled_over)).map Task.sort_order with
   | [] => 0
   | v :: vs => vs.foldl max v) + 1

/-! ### Rollover engine (`repository.rs::rollover_tasks`) -/

/-- The field updates applied to one overdue row by the rollover sweep. -/
def rollRow (today now from_date : String) (position : Int) (t : Task) : Task :=
  { t with
    target_date := today
    rolled_over := true
    rolled_from_date := some from_date
    sort_order := position
    updated_at := now }

/-- The per-row loop of `rollover_tasks`: each selected `(id, from_date)` pair
gets a fresh end-of-partition position computed against the current table. -/
def rolloverGo (today now : String) : List (String × String) → List Task → List Task
  | [], db => db
  | r :: rs, db =>
    let position := next_sort_order db today true
    rolloverGo today now rs (updateById db r.1 (rollRow today now r.2 position))

/-- The overdue selection of `rollover_tasks`:
`SELECT id, target_date FROM tasks WHERE target_date < ?1 AND status != 'done'`
(SQLite compares these ASCII date strings bytewise, which is the string
order `<`). -/
def overdueRows (today : String) (db : List Task) : List (String × String) :=
  (db.filter (fun t =>
      strLt t.target_date today && !(t.status == "done"))).map
    (fun t => (t.id, t.target_date))

/-- `repository.rs::rollover_tasks`: select `(id, target_date)` of every task
with `target_date < today AND status != 'done'`, move each into today's
rolled-over partition, and return the moved-row count. -/
def rollover_tasks (today now : String) (db : List Task) : List Task × Nat :=
  (rolloverGo today now (overdueRows today db) db, (overdueRows today db).length)

/-! ### Manual ordering (`repository.rs::move_task`) -/

/-- One step of scanning for the `ORDER BY sort_order DESC/ASC LIMIT 1` row:
keep the best row seen so far, replacing it only on a strict improvement (so
among equal keys the first row wins, as SQLite leaves the tie order
unspecified). -/
def pickStep (up : Bool) (best : Option Task) (u : Task) : Option Task :=
  match best with
  | none => some u
  | some b =>
    if up then (if b.sort_order < u.sort_order then some u else some b)
    else (if u.sort_order < b.sort_order then some u else some b)

/-- The neighbor query of `move_task`: among rows of the same
`(target_date, rolled_over)` partition with strictly smaller (direction "up")
or strictly greater ("down") `sort_order`, pick the nearest one
(`ORDER BY sort_order DESC LIMIT 1` for "up", `ASC` for "down"). -/
def pickNeighbor (db : List Task) (t : Task) (up : Bool) : Option Task :=
  (db.filter (fun u =>
    u.target_date == t.target_date && u.rolled_over == t.rolled_over &&
    !(u.id == t.id) &&
    (if up then decide (u.sort_order < t.sort_order)
     else decide (t.sort_order < u.sort_order)))).foldl (pickStep up) none

/-- The two `UPDATE`s that exchange the `sort_order` of a task and its
neighbor. -/
def swapOrders (db : List Task) (t n : Task) (now : String) : List Task :=
  updateById
    (updateById db t.id (fun u => { u with sort_order := n.sort_order, updated_at := now }))
    n.id (fun u => { u with sort_order := t.sort_order, updated_at := now })

/-- `repository.rs::move_task`, returning the operation result together with
the table after any updates (error paths perform no update). -/
def move_task (db : List Task) (id direction now : String) :
    Except String Unit × List Task :=
  match findById db id with
  | none => (.error "query returned no rows", db)
  | some t =>
    if direction = "up" then
      match pickNeighbor db t true with
      | none => (.ok (), db)
      | some n => (.ok (), swapOrders db t n now)
    else if direction = "down" then
      match pickNeighbor db t false with
      | none => (.ok (), db)
      | some n => (.ok (), swapOrders db t n now)
    else (.error "Invalid move direction", db)

/-! ### Recurrence sweep (`repository.rs::ensure_recurrences`) -/

/-- The store as seen by the recurrence sweep: the `tasks` table, the `tags`
table (id, name, created_at), the `task_tags` join table, and a counter
standing in for `Uuid::new_v4`. -/
structure Store where
  tasks : List Task
  tagRows : List (String × String × String)
  taskTags : List (String × String)
  nextUuid : Nat
deriving DecidableEq

/-- Deterministic stand-in for `Uuid::new_v4()`. -/
def freshId (n : Nat) : String := "uuid-" ++ toString n

/-- `INSERT OR IGNORE INTO task_tags` (primary key `(task_id, tag_id)`). -/
def insertIgnore (l : List (String × String)) (p : String × String) :
    List (String × String) :=
  if p ∈ l then l else l ++ [p]

/-- The per-tag loop of `repository.rs::sync_task_tags`: look up an existing
tag case-insensitively or create one, then insert the join row. -/
def syncTaskTagsGo (now task_id : String) : List String → Store → Store
  | [], st => st
  | tag :: rest, st =>
    match st.tagRows.find? (fun g => strToLower g.2.1 == strToLower tag) with
    | some g =>
      syncTaskTagsGo now task_id rest
        { st with taskTags := insertIgnore st.taskTags (task_id, g.1) }
    | none =>
      let id := freshId st.nextUuid
      syncTaskTagsGo now task_id rest
        { st with
          tagRows := st.tagRows ++ [(id, tag, now)]
          taskTags := insertIgnore st.taskTags (task_id, id)
          nextUuid := st.nextUuid + 1 }

/-- `repository.rs::sync_task_tags`. -/
def sync_task_tags (now task_id : String) (tags : List String) (st : Store) : Store :=
  let st1 := { st with taskTags := st.taskTags.filter (fun p => !(p.1 == task_id)) }
  if tags.isEmpty then st1 else syncTaskTagsGo now task_id tags st1

/-- `repository.rs::has_recurring_occurrence`: an existing recurring task with
the same `(title, recurrence_type, recurrence_interval, recurrence_weekdays,
target_date)` signature (`COALESCE` defaults applied on both sides). -/
def has_recurring_occurrence (db : List Task) (task : Task) (date : String) : Bool :=
  db.any (fun t =>
    t.title == task.title && t.target_date == date && t.is_recurring &&
    (t.recurrence_type.getD "" == task.recurrence_type.getD "") &&
    (t.recurrence_interval.getD 1 == task.recurrence_interval.getD 1) &&
    (t.recurrence_weekdays.getD "" == task.recurrence_weekdays.getD ""))

/-- `repository.rs::insert_next_occurrence`: the generated occurrence row
starts at `status='todo'`, `progress=0`, `rolled_over=0`, inherits
title/notes/deadline/timer configuration and normalised tags, and gets a
fresh end-of-partition `sort_order` in the `(next_date, 0)` partition. -/
def insert_next_occurrence (now : String) (source : Task) (next_date : String)
    (st : Store) : Store :=
  let id := freshId st.nextUuid
  let sort_order := next_sort_order st.tasks next_date false
  let normalized_tags := normalize_task_tags source.tags
  let timer_state : Option String := if source.timer_enabled then some "idle" else none
  let newTask : Task :=
    { id := id, title := source.title, notes := source.notes, tags := normalized_tags,
      target_date := next_date, status := "todo", progress_percent := 0,
      deadline_at := source.deadline_at, is_recurring := true,
      recurrence_type := source.recurrence_type,
      recurrence_interval := some (source.recurrence_interval.getD 1),
      recurrence_weekdays := source.recurrence_weekdays,
      timer_enabled := source.timer_enabled, timer_minutes := source.timer_minutes,
      timer_state := timer_state, timer_ends_at := none, rolled_over := false,
      rolled_from_date := none, sort_order := sort_order, created_at := now,
      updated_at := now }
  let st1 := { st with tasks := st.tasks ++ [newTask], nextUuid := st.nextUuid + 1 }
  sync_task_tags now id normalized_tags st1

/-- One iteration of the `for task in recurring_tasks` loop of
`ensure_recurrences`: skip rows without a recurrence type; for `done` rows
generate the next occurrence under the dedup guard; for other rows behind
today, advance the date in place via the catch-up loop (fuel-indexed; `none`
stands for a parse failure or a loop that has not finished within the fuel). -/
def processTask (today : Date) (now : String) (fuel : Nat) (st : Store) (task : Task) :
    Option Store :=
  if task.recurrence_type.isNone then some st
  else if task.status == "done" then
    match parse_date task.target_date with
    | none => none
    | some base =>
      let next := next_occurrence_date task base
      let next_str := format_date next
      if has_recurring_occurrence st.tasks task next_str then some st
      else some (insert_next_occurrence now task next_str st)
  else
    match parse_date task.target_date with
    | none => none
    | some date0 =>
      if ¬ Date.lt date0 today then some st
      else
        match catchUp task today fuel date0 with
        | none => none
        | some date =>
          let date_str := format_date date
          let tasks' := updateById st.tasks task.id (fun t =>
            { t with
              target_date := date_str
              sort_order := next_sort_order st.tasks date_str task.rolled_over
              updated_at := now })
          some { st with tasks := tasks' }

/-- The loop of `ensure_recurrences` over the snapshot of recurring rows. -/
def ensureGo (today : Date) (now : String) (fuel : Nat) :
    List Task → Store → Option Store
  | [], st => some st
  | task :: rest, st =>
    match processTask today now fuel st task with
    | none => none
    | some st' => ensureGo today now fuel rest st'

/-- `repository.rs::ensure_recurrences`. -/
def ensure_recurrences (today : Date) (now : String) (fuel : Nat) (st : Store) :
    Option Store :=
  ensureGo today now fuel (st.tasks.filter (fun t => t.is_recurring)) st

/-- A plain overdue task dated 2026-02-04, used to exercise the rollover
sweep on two consecutive days. -/
def overdueTask : Task :=
  { id := "a", title := "A", notes := none, tags := [], target_date := "2026-02-04",
    status := "todo", progress_percent := 0, deadline_at := none, is_recurring := false,
    recurrence_type := none, recurrence_interval := none, recurrence_weekdays := none,
    timer_enabled := false, timer_minutes := none, timer_state := none,
    timer_ends_at := none, rolled_over := false, rolled_from_date := none,
    sort_order := 1, created_at := "c", updated_at := "c" }

/-- A `done` daily task anchored at 2026-02-06, the C4 scenario row. -/
def doneDailyTask : Task :=
  { id := "a", title := "A", notes := none, tags := [], target_date := "2026-02-06",
    status := "done", progress_percent := 100, deadline_at := none, is_recurring := true,
    recurrence_type := some "daily", recurrence_interval := some 1,
    recurrence_weekdays := none, timer_enabled := false, timer_minutes := none,
    timer_state := none, timer_ends_at := none, rolled_over := false,
    rolled_from_date := none, sort_order := 1, created_at := "c", updated_at := "c" }

/-- The C4 scenario store: just the one completed daily task. -/
def scenarioStore : Store :=
  { tasks := [doneDailyTask], tagRows := [], taskTags := [], nextUuid := 0 }

/-! ## Migration runner (`db.rs`) -/

/-- The slice of the schema the migration claims observe: the
`schema_migrations` rows, whether `tasks` has the `tags` column, and which
versions' DDL scripts have actually been executed. -/
structure Schema where
  applied : List Int
  hasTags : Bool
  executed : List Int
deriving DecidableEq

/-- Modelled effect of executing one migration script: version 8
(`0008_task_tags_column.sql`) adds the `tags` column and fails with a
duplicate-column error if it is already present; the other scripts touch parts
of the schema outside this model and always succeed. -/
def runDDL (v : Int) (s : Schema) : Except String Schema :=
  if v = 8 then
    if s.hasTags then .error "duplicate column name: tags"
    else .ok { s with hasTags := true, executed := s.executed ++ [v] }
  else .ok { s with executed := s.executed ++ [v] }

/-- The version numbers of the `MIGRATIONS` list of `db.rs`. -/
def migrationVersions : List Int := [1, 2, 3, 4, 5, 6, 7, 8]

/-- The loop of `db.rs::run_migrations`: skip applied versions; for version 8,
if `tasks` already has the `tags` column, record the version as applied
without executing the DDL; otherwise execute the DDL and record the version. -/
def runMigrationsGo : List Int → Schema → Except String Schema
  | [], s => .ok s
  | v :: vs, s =>
    if v ∈ s.applied then runMigrationsGo vs s
    else if v = 8 ∧ s.hasTags then
      runMigrationsGo vs { s with applied := s.applied ++ [v] }
    else
      match runDDL v s with
      | .error e => .error e
      | .ok s' => runMigrationsGo vs { s' with applied := s'.applied ++ [v] }

/-- `db.rs::run_migrations`. -/
def run_migrations (s : Schema) : Except String Schema :=
  runMigrationsGo migrationVersions s

/-- `db.rs::ensure_task_tags_schema`, restricted to the modelled slice: add
the `tags` column if missing (the `CREATE TABLE IF NOT EXISTS` statements do
not fail and are outside the modelled slice). -/
def ensure_task_tags_schema (s : Schema) : Except String Schema :=
  .ok (if s.hasTags then s else { s with hasTags := true })

/-- `db.rs::open_db`, restricted to the modelled slice: run the migrations,
then the tags-schema repair. -/
def open_db (s : Schema) : Except String Schema :=
  match run_migrations s with
  | .error e => .error e
  | .ok s1 => ensure_task_tags_schema s1

/-! ### Basic facts about the calendar core -/

theorem daysInMonth_pos {y : Int} {m : Nat} (h1 : 1 ≤ m) (h12 : m ≤ 12) :
    1 ≤ daysInMonth y m := by
  interval_cases m <;> simp [daysInMonth] <;> split <;> omega

theorem daysInMonth_le_31 (y : Int) (m : Nat) : daysInMonth y m ≤ 31 := by
  unfold daysInMonth
  split <;> first | omega | (split <;> omega)

theorem daysBeforeMonth_succ (y : Int) (m : Nat) :
    daysBeforeMonth y (m + 1) = daysBeforeMonth y m + daysInMonth y m := rfl

theorem daysBeforeMonth_one (y : Int) : daysBeforeMonth y 1 = 0 := rfl

theorem daysInMonth_one (y : Int) : daysInMonth y 1 = 31 := rfl

theorem daysInMonth_twelve_eq (y : Int) : daysInMonth y 12 = 31 := rfl

theorem daysBeforeMonth_mono (y : Int) {m m' : Nat} (h : m ≤ m') :
    daysBeforeMonth y m ≤ daysBeforeMonth y m' := by
  induction m' with
  | zero =>
    have hm : m = 0 := by omega
    subst hm
    exact le_refl _
  | succ k ih =>
    rcases Nat.lt_or_ge m (k + 1) with h' | h'
    · have hk := ih (by omega)
      rw [daysBeforeMonth_succ]
      omega
    · have hm : m = k + 1 := by omega
      subst hm
      exact le_refl _

theorem daysBeforeMonth_add_dim_le (y : Int) {m m' : Nat} (h : m < m') :
    daysBeforeMonth y m + daysInMonth y m ≤ daysBeforeMonth y m' := by
  calc daysBeforeMonth y m + daysInMonth y m = daysBeforeMonth y (m + 1) :=
        (daysBeforeMonth_succ y m).symm
    _ ≤ daysBeforeMonth y m' := daysBeforeMonth_mono y h

theorem daysBeforeMonth_twelve (y : Int) :
    daysBeforeMonth y 12 = if isLeapYear y then 335 else 334 := by
  cases h : isLeapYear y <;> norm_num [daysBeforeMonth, daysInMonth, h]

theorem isLeapYear_iff (y : Int) :
    isLeapYear y = true ↔ (y % 4 = 0 ∧ (¬ y % 100 = 0 ∨ y % 400 = 0)) := by
  simp [isLeapYear]

/-- Rolling from December 31 into January 1 advances the rata-die count by one:
the leap-day corrections `⌊·/4⌋ - ⌊·/100⌋ + ⌊·/400⌋` account exactly for the
year's length. -/
theorem toRataDie_year_step (y : Int) :
    toRataDie ⟨y + 1, 1, 1⟩ = toRataDie ⟨y, 12, 31⟩ + 1 := by
  simp only [toRataDie, daysBeforeMonth_twelve, daysBeforeMonth_one]
  by_cases hc : y % 4 = 0 ∧ (¬ y % 100 = 0 ∨ y % 400 = 0)
  · rw [if_pos ((isLeapYear_iff y).mpr hc)]
    omega
  · rw [if_neg (fun h => hc ((isLeapYear_iff y).mp h))]
    omega

theorem Date.Valid.nextDay {d : Date} (h : d.Valid) : (DayRally.nextDay d).Valid := by
  obtain ⟨y, m, day⟩ := d
  obtain ⟨h1, h2, h3, h4⟩ := h
  simp only at h1 h2 h3 h4
  show Date.Valid (if day < daysInMonth y m then (⟨y, m, day + 1⟩ : Date)
      else if m < 12 then ⟨y, m + 1, 1⟩ else ⟨y + 1, 1, 1⟩)
  split_ifs with hlt hm
  · exact valid_mk h1 h2 (by omega) (by omega)
  · exact valid_mk (by omega) (by omega) (le_refl 1) (daysInMonth_pos (by omega) (by omega))
  · exact valid_mk (le_refl 1) (by norm_num) (le_refl 1) (by rw [daysInMonth_one]; omega)

theorem toRataDie_nextDay {d : Date} (h : d.Valid) :
    toRataDie (DayRally.nextDay d) = toRataDie d + 1 := by
  obtain ⟨y, m, day⟩ := d
  obtain ⟨h1, h2, h3, h4⟩ := h
  simp only at h1 h2 h3 h4
  show toRataDie (if day < daysInMonth y m then (⟨y, m, day + 1⟩ : Date)
      else if m < 12 then ⟨y, m + 1, 1⟩ else ⟨y + 1, 1, 1⟩) = toRataDie ⟨y, m, day⟩ + 1
  split_ifs with hlt hm
  · simp only [toRataDie]
    omega
  · have hday : day = daysInMonth y m := by omega
    simp only [toRataDie, daysBeforeMonth_succ]
    omega
  · have hm12 : m = 12 := by omega
    subst hm12
    have h31 : daysInMonth y 12 = 31 := rfl
    have hday : day = 31 := by omega
    subst hday
    exact toRataDie_year_step y

theorem valid_iterate_nextDay {d : Date} (h : d.Valid) (k : Nat) :
    (nextDay^[k] d).Valid := by
  induction k with
  | zero => simpa using h
  | succ n ih =>
    rw [Function.iterate_succ_apply']
    exact ih.nextDay

theorem toRataDie_iterate_nextDay {d : Date} (h : d.Valid) (k : Nat) :
    toRataDie (nextDay^[k] d) = toRataDie d + k := by
  induction k with
  | zero => simp
  | succ n ih =>
    rw [Function.iterate_succ_apply', toRataDie_nextDay (valid_iterate_nextDay h n), ih]
    push_cast
    ring

theorem toRataDie_lt_sameYear {a b : Date} (ha : a.Valid) (hb : b.Valid)
    (hy : a.year = b.year)
    (h : a.month < b.month ∨ (a.month = b.month ∧ a.day < b.day)) :
    toRataDie a < toRataDie b := by
  obtain ⟨ha1, ha2, ha3, ha4⟩ := ha
  obtain ⟨hb1, hb2, hb3, hb4⟩ := hb
  obtain ⟨ya, ma, da⟩ := a
  obtain ⟨yb, mb, dbv⟩ := b
  simp only at hy h ha1 ha2 ha3 ha4 hb1 hb2 hb3 hb4
  subst hy
  rcases h with h | ⟨hm, hd⟩
  · have hdbm := daysBeforeMonth_add_dim_le ya h
    simp only [toRataDie]
    omega
  · subst hm
    simp only [toRataDie]
    omega

theorem valid_dec31 (y : Int) : Date.Valid ⟨y, 12, 31⟩ :=
  valid_mk (by norm_num) (le_refl 12) (by norm_num) (by rw [daysInMonth_twelve_eq])

theorem valid_jan1 (y : Int) : Date.Valid ⟨y, 1, 1⟩ :=
  valid_mk (le_refl 1) (by norm_num) (le_refl 1) (by rw [daysInMonth_one]; omega)

theorem toRataDie_le_dec31 {a : Date} (ha : a.Valid) :
    toRataDie a ≤ toRataDie ⟨a.year, 12, 31⟩ := by
  have hm12 := ha.2.1
  rcases Nat.lt_or_ge a.month 12 with h | h
  · exact le_of_lt (toRataDie_lt_sameYear ha (valid_dec31 a.year) rfl (Or.inl h))
  · have hm : a.month = 12 := by omega
    rcases Nat.lt_or_ge a.day 31 with hd | hd
    · exact le_of_lt (toRataDie_lt_sameYear ha (valid_dec31 a.year) rfl (Or.inr ⟨hm, hd⟩))
    · have heq : a = ⟨a.year, 12, 31⟩ := by
        obtain ⟨y, m, d⟩ := a
        obtain ⟨-, -, -, h4⟩ := ha
        simp only at hm hd h4
        simp only [Date.mk.injEq, true_and]
        have := daysInMonth_le_31 y m
        exact ⟨hm, by omega⟩
      rw [← heq]

theorem jan1_le_toRataDie {b : Date} (hb : b.Valid) :
    toRataDie ⟨b.year, 1, 1⟩ ≤ toRataDie b := by
  have hb1 := hb.1
  rcases Nat.lt_or_ge 1 b.month with h | h
  · exact le_of_lt (toRataDie_lt_sameYear (valid_jan1 b.year) hb rfl (Or.inl h))
  · have hm : b.month = 1 := by omega
    rcases Nat.lt_or_ge 1 b.day with hd | hd
    · exact le_of_lt (toRataDie_lt_sameYear (valid_jan1 b.year) hb rfl (Or.inr ⟨hm.symm, hd⟩))
    · have heq : b = ⟨b.year, 1, 1⟩ := by
        obtain ⟨y, m, d⟩ := b
        obtain ⟨h1, -, h3, -⟩ := hb
        simp only at hm hd h1 h3
        simp only [Date.mk.injEq, true_and]
        exact ⟨hm, by omega⟩
      rw [heq]

theorem toRataDie_jan1_mono {y y' : Int} (h : y ≤ y') :
    toRataDie ⟨y, 1, 1⟩ ≤ toRataDie ⟨y', 1, 1⟩ := by
  simp only [toRataDie, daysBeforeMonth_one]
  omega

/-- The rata-die day count is strictly monotone with respect to chronological
order on valid dates. -/
theorem toRataDie_strictMono {a b : Date} (ha : a.Valid) (hb : b.Valid)
    (h : Date.lt a b) : toRataDie a < toRataDie b := by
  rcases h with h | ⟨hy, h⟩
  · calc toRataDie a ≤ toRataDie ⟨a.year, 12, 31⟩ := toRataDie_le_dec31 ha
      _ < toRataDie ⟨a.year + 1, 1, 1⟩ := by rw [toRataDie_year_step]; omega
      _ ≤ toRataDie ⟨b.year, 1, 1⟩ := toRataDie_jan1_mono (by omega)
      _ ≤ toRataDie b := jan1_le_toRataDie hb
  · exact toRataDie_lt_sameYear ha hb hy h

/-! ### Day-addition facts -/

theorem addDays_of_nonneg (d : Date) {n : Int} (h : 0 ≤ n) :
    addDays d n = nextDay^[n.toNat] d := by
  rw [addDays, if_pos h]

theorem Date.Valid.addDays_nonneg {d : Date} (hd : d.Valid) {n : Int} (h : 0 ≤ n) :
    (DayRally.addDays d n).Valid := by
  rw [addDays_of_nonneg d h]
  exact valid_iterate_nextDay hd n.toNat

theorem toRataDie_addDays {d : Date} (hd : d.Valid) {n : Int} (h : 0 ≤ n) :
    toRataDie (addDays d n) = toRataDie d + n := by
  rw [addDays_of_nonneg d h, toRataDie_iterate_nextDay hd, Int.toNat_of_nonneg h]

/-! ### Month-normalisation loop facts -/

theorem monthsUp_eq (y m : Int) :
    monthsUp y m = if 12 < m then monthsUp (y + 1) (m - 12) else (y, m) := by
  conv_lhs => rw [monthsUp]

theorem monthsDown_eq (y m : Int) :
    monthsDown y m = if m ≤ 0 then monthsDown (y - 1) (m + 12) else (y, m) := by
  conv_lhs => rw [monthsDown]

theorem monthsUp_spec : ∀ (n : Nat) (y m y' m' : Int), m.toNat ≤ n →
    monthsUp y m = (y', m') →
    12 * y' + m' = 12 * y + m ∧ m' ≤ 12 ∧ (1 ≤ m → 1 ≤ m') := by
  intro n
  induction n with
  | zero =>
    intro y m y' m' hm h
    rw [monthsUp_eq, if_neg (by omega)] at h
    cases h
    exact ⟨rfl, by omega, fun hh => hh⟩
  | succ k ih =>
    intro y m y' m' hm h
    rw [monthsUp_eq] at h
    split at h
    · next h12 =>
      obtain ⟨e, le, pos⟩ := ih (y + 1) (m - 12) y' m' (by omega) h
      exact ⟨by omega, le, fun _ => pos (by omega)⟩
    · next h12 =>
      cases h
      exact ⟨rfl, by omega, fun hh => hh⟩

theorem monthsDown_spec : ∀ (n : Nat) (y m y' m' : Int), (1 - m).toNat ≤ n →
    monthsDown y m = (y', m') →
    12 * y' + m' = 12 * y + m ∧ 1 ≤ m' ∧ (m ≤ 12 → m' ≤ 12) := by
  intro n
  induction n with
  | zero =>
    intro y m y' m' hm h
    rw [monthsDown_eq, if_neg (by omega)] at h
    cases h
    exact ⟨rfl, by omega, fun hh => hh⟩
  | succ k ih =>
    intro y m y' m' hm h
    rw [monthsDown_eq] at h
    split at h
    · next h0 =>
      obtain ⟨e, pos, le⟩ := ih (y - 1) (m + 12) y' m' (by omega) h
      exact ⟨by omega, pos, fun _ => le (by omega)⟩
    · next h0 =>
      cases h
      exact ⟨rfl, by omega, fun hh => hh⟩

theorem monthsDown_of_pos (y : Int) {m : Int} (h : 1 ≤ m) : monthsDown y m = (y, m) := by
  rw [monthsDown_eq, if_neg (by omega)]

theorem ymdValid_iff (y : Int) (m d : Nat) :
    ymdValid y m d = true ↔ (1 ≤ m ∧ m ≤ 12 ∧ 1 ≤ d ∧ d ≤ daysInMonth y m) := by
  simp [ymdValid, and_assoc]

/-- Once the requested day overshoots the month length, the descending fallback
loop stops exactly at the last valid day of the month. -/
theorem fallbackScan_finds (y : Int) {m : Nat} (h1 : 1 ≤ m) (h2 : m ≤ 12) :
    ∀ fd : Nat, daysInMonth y m < fd →
      fallbackScan y m fd = some ⟨y, m, daysInMonth y m⟩ := by
  intro fd
  induction fd using Nat.strong_induction_on with
  | _ fd ih =>
    intro hfd
    have hdim := daysInMonth_pos (y := y) h1 h2
    rcases fd with _ | _ | fd
    · omega
    · omega
    · show (if ymdValid y m (fd + 1) then some (⟨y, m, fd + 1⟩ : Date)
            else fallbackScan y m (fd + 1)) = _
      rcases Nat.lt_or_ge (daysInMonth y m) (fd + 1) with hgt | hle
      · rw [if_neg, ih (fd + 1) (by omega) hgt]
        simp only [ymdValid_iff]
        omega
      · have heq : fd + 1 = daysInMonth y m := by omega
        rw [if_pos ((ymdValid_iff y m (fd + 1)).mpr ⟨h1, h2, by omega, by omega⟩), heq]

/-- Characterisation of `add_months_keep_day`: the target month is the anchor
month advanced by `interval` (normalised to 1–12 with year carry), and the day
is the anchor's day-of-month clamped to the target month's length. -/
theorem add_months_keep_day_spec {base : Date} (hb : base.Valid) (interval : Int) :
    ∃ (Y : Int) (M : Nat), 1 ≤ M ∧ M ≤ 12 ∧
      12 * Y + (M : Int) = 12 * base.year + (base.month : Int) + interval ∧
      add_months_keep_day base interval = ⟨Y, M, min base.day (daysInMonth Y M)⟩ := by
  obtain ⟨hb1, hb2, hb3, hb4⟩ := hb
  rcases h1 : monthsUp base.year ((base.month : Int) + interval) with ⟨y1, m1⟩
  obtain ⟨e1, le1, -⟩ := monthsUp_spec _ base.year _ y1 m1 (le_refl _) h1
  rcases h2 : monthsDown y1 m1 with ⟨y2, m2⟩
  obtain ⟨e2, pos2, le2⟩ := monthsDown_spec _ y1 m1 y2 m2 (le_refl _) h2
  have hm2 : m2 ≤ 12 := le2 le1
  refine ⟨y2, m2.toNat, by omega, by omega, by omega, ?_⟩
  unfold add_months_keep_day
  rw [h1]
  dsimp only
  rw [h2]
  dsimp only
  rcases le_or_lt base.day (daysInMonth y2 m2.toNat) with hle | hgt
  · rw [if_pos ((ymdValid_iff _ _ _).mpr ⟨by omega, by omega, hb3, hle⟩),
      Nat.min_eq_left hle]
  · rw [if_neg, fallbackScan_finds y2 (by omega) (by omega) base.day hgt,
      Nat.min_eq_right (by omega)]
    simp only [ymdValid_iff]
    omega

/-- Same characterisation for the monthly branch of the service's
`next_occurrence`. -/
theorem next_occurrence_monthly_spec {base : Date} (hb : base.Valid) {interval : Int}
    (hi : 1 ≤ interval) (fuel : Nat) :
    ∃ (Y : Int) (M : Nat), 1 ≤ M ∧ M ≤ 12 ∧
      12 * Y + (M : Int) = 12 * base.year + (base.month : Int) + interval ∧
      next_occurrence fuel (.monthly interval) base =
        some ⟨Y, M, min base.day (daysInMonth Y M)⟩ := by
  obtain ⟨hb1, hb2, hb3, hb4⟩ := hb
  rcases h1 : monthsUp base.year ((base.month : Int) + interval) with ⟨y1, m1⟩
  obtain ⟨e1, le1, pos1⟩ := monthsUp_spec _ base.year _ y1 m1 (le_refl _) h1
  have hm1pos : 1 ≤ m1 := pos1 (by omega)
  refine ⟨y1, m1.toNat, by omega, by omega, by omega, ?_⟩
  unfold next_occurrence
  dsimp only
  rw [h1]
  dsimp only
  rcases le_or_lt base.day (daysInMonth y1 m1.toNat) with hle | hgt
  · rw [if_pos ((ymdValid_iff _ _ _).mpr ⟨by omega, by omega, hb3, hle⟩)]
    rw [Nat.min_eq_left hle]
  · have hnv : ¬ ymdValid y1 m1.toNat base.day = true := by
      simp only [ymdValid_iff]
      omega
    rw [if_neg hnv]
    have hm1lt : m1.toNat < 12 := by
      rcases Nat.lt_or_ge m1.toNat 12 with h | h
      · exact h
      · exfalso
        have h12 : m1.toNat = 12 := by omega
        rw [h12, daysInMonth_twelve_eq] at hgt
        have := daysInMonth_le_31 base.year base.month
        omega
    rw [if_pos ((ymdValid_iff _ _ _).mpr ⟨by omega, by omega, le_refl 1,
      daysInMonth_pos (by omega) (by omega)⟩)]
    congr 1
    show prevDay ⟨y1, m1.toNat + 1, 1⟩ = _
    unfold prevDay
    rw [if_neg (by norm_num)]
    dsimp only
    rw [if_pos (by omega)]
    rw [Nat.min_eq_right (by omega)]
    norm_num

/-- The service's monthly branch computes exactly `add_months_keep_day`. -/
theorem next_occurrence_monthly_eq {base : Date} (hb : base.Valid) {interval : Int}
    (hi : 1 ≤ interval) (fuel : Nat) :
    next_occurrence fuel (.monthly interval) base =
      some (add_months_keep_day base interval) := by
  obtain ⟨Y1, M1, hM1a, hM1b, he1, hr1⟩ := add_months_keep_day_spec hb interval
  obtain ⟨Y2, M2, hM2a, hM2b, he2, hr2⟩ := next_occurrence_monthly_spec hb hi fuel
  have hY : Y1 = Y2 ∧ M1 = M2 := by omega
  rw [hr1, hr2, hY.1, hY.2]

example : toRataDie ⟨1970, 1, 1⟩ = 719163 := by decide
example : Date.weekday ⟨1970, 1, 1⟩ = .thu := by decide
example : Date.weekday ⟨2026, 2, 6⟩ = .fri := by decide
example : Date.weekday ⟨2026, 2, 9⟩ = .mon := by decide
example : nextDay ⟨2026, 2, 28⟩ = ⟨2026, 3, 1⟩ := by decide
example : nextDay ⟨2024, 2, 28⟩ = ⟨2024, 2, 29⟩ := by decide
example : prevDay ⟨2026, 3, 1⟩ = ⟨2026, 2, 28⟩ := by decide

/-! ### Weekly-scan facts -/

theorem addDays_natCast (d : Date) (n : Nat) : addDays d (n : Int) = nextDay^[n] d := by
  rw [addDays_of_nonneg d (Int.natCast_nonneg n), Int.toNat_natCast]

theorem addDays_one (d : Date) : addDays d 1 = nextDay d := by
  have h : addDays d ((1 : Nat) : Int) = nextDay^[1] d := addDays_natCast d 1
  simpa using h

theorem weeklyScan_some_spec (S : List Wd) (i : Int) (ows : Date) :
    ∀ (fuel : Nat) (cursor c : Date), weeklyScan S i ows fuel cursor = some c →
      ∃ k : Nat, k < fuel ∧ c = nextDay^[k] cursor ∧ weeklyPred S i ows c = true ∧
        ∀ j : Nat, j < k → weeklyPred S i ows (nextDay^[j] cursor) = false := by
  intro fuel
  induction fuel with
  | zero =>
    intro cursor c h
    simp [weeklyScan] at h
  | succ n ih =>
    intro cursor c h
    rw [show weeklyScan S i ows (n + 1) cursor =
        if weeklyPred S i ows cursor then some cursor
        else weeklyScan S i ows n (nextDay cursor) from rfl] at h
    split at h
    · next hp =>
      cases h
      exact ⟨0, by omega, rfl, hp, fun j hj => absurd hj (Nat.not_lt_zero j)⟩
    · next hp =>
      rw [Bool.not_eq_true] at hp
      obtain ⟨k, hk, hc, hpred, hfirst⟩ := ih (nextDay cursor) c h
      refine ⟨k + 1, by omega, ?_, hpred, ?_⟩
      · rw [Function.iterate_succ_apply]
        exact hc
      · intro j hj
        rcases j with _ | j'
        · simpa using hp
        · rw [Function.iterate_succ_apply]
          exact hfirst j' (by omega)

theorem weeklyScan_none_spec (S : List Wd) (i : Int) (ows : Date) :
    ∀ (fuel : Nat) (cursor : Date), weeklyScan S i ows fuel cursor = none →
      ∀ k : Nat, k < fuel → weeklyPred S i ows (nextDay^[k] cursor) = false := by
  intro fuel
  induction fuel with
  | zero =>
    intro cursor _ k hk
    omega
  | succ n ih =>
    intro cursor h k hk
    rw [show weeklyScan S i ows (n + 1) cursor =
        if weeklyPred S i ows cursor then some cursor
        else weeklyScan S i ows n (nextDay cursor) from rfl] at h
    split at h
    · cases h
    · next hp =>
      rw [Bool.not_eq_true] at hp
      rcases k with _ | k'
      · simpa using hp
      · rw [Function.iterate_succ_apply]
        exact ih (nextDay cursor) h k' (by omega)

theorem weeklyScan_hit (S : List Wd) (i : Int) (ows : Date) :
    ∀ (k fuel : Nat) (cursor : Date), k < fuel →
      weeklyPred S i ows (nextDay^[k] cursor) = true →
      (∀ j : Nat, j < k → weeklyPred S i ows (nextDay^[j] cursor) = false) →
      weeklyScan S i ows fuel cursor = some (nextDay^[k] cursor) := by
  intro k
  induction k with
  | zero =>
    intro fuel cursor hk hp _
    rcases fuel with _ | n
    · omega
    · show (if weeklyPred S i ows cursor then some cursor
          else weeklyScan S i ows n (nextDay cursor)) = _
      simp only [Function.iterate_zero_apply] at hp
      rw [if_pos hp]
      simp
  | succ k' ih =>
    intro fuel cursor hk hp hfirst
    rcases fuel with _ | n
    · omega
    · show (if weeklyPred S i ows cursor then some cursor
          else weeklyScan S i ows n (nextDay cursor)) = _
      have h0 : weeklyPred S i ows cursor = false := by
        simpa using hfirst 0 (by omega)
      rw [if_neg (by simp [h0])]
      rw [Function.iterate_succ_apply] at hp ⊢
      exact ih n (nextDay cursor) (by omega) hp (fun j hj => by
        have := hfirst (j + 1) (by omega)
        rwa [Function.iterate_succ_apply] at this)

theorem weeklyPred_iff_candidate (S : List Wd) (i : Int) (anchor c : Date) :
    weeklyPred S i (weekStart anchor) c = true ↔ weeklyCandidate S i anchor c := by
  unfold weeklyPred weeklyCandidate
  rw [Bool.and_eq_true, beq_iff_eq]
  rw [← Int.dvd_iff_tmod_eq_zero]
  constructor
  · rintro ⟨h1, h2⟩
    exact ⟨by simpa using h2, h1⟩
  · rintro ⟨h1, h2⟩
    exact ⟨h2, by simpa using h1⟩

/-- C2: for a weekly rule with a non-empty weekday set (and any interval
`≥ 1`), `next_occurrence_date` scans forward day by day from `anchor + 1` and
returns the first candidate (within the 500-day cap) whose weekday is in the
set and whose Monday-aligned whole-week distance from the anchor's week is a
multiple of the interval; if no candidate exists within the cap, it returns
`anchor + interval*7` days. In particular, for weekly(1, {Mon,Wed}) anchored at
2026-02-06 (a Friday), the result is strictly after the anchor and its weekday
is Mon or Wed. -/
theorem claim_C2 (task : Task) (anchor : Date)
    (hty : task.recurrence_type = some "weekly")
    (hS : parse_weekdays_csv task.recurrence_weekdays ≠ [])
    (hi : 1 ≤ task.recurrence_interval.getD 1) :
    ((∃ k : Nat, 1 ≤ k ∧ k ≤ 500 ∧
        next_occurrence_date task anchor = addDays anchor (k : Int) ∧
        weeklyCandidate (parse_weekdays_csv task.recurrence_weekdays)
          (task.recurrence_interval.getD 1) anchor (addDays anchor (k : Int)) ∧
        ∀ j : Nat, 1 ≤ j → j < k →
          ¬ weeklyCandidate (parse_weekdays_csv task.recurrence_weekdays)
              (task.recurrence_interval.getD 1) anchor (addDays anchor (j : Int))) ∨
      (next_occurrence_date task anchor =
          addDays anchor (task.recurrence_interval.getD 1 * 7) ∧
        ∀ j : Nat, 1 ≤ j → j ≤ 500 →
          ¬ weeklyCandidate (parse_weekdays_csv task.recurrence_weekdays)
              (task.recurrence_interval.getD 1) anchor (addDays anchor (j : Int)))) ∧
    Date.lt ⟨2026, 2, 6⟩
      (next_occurrence_date (mkRecurring (some "weekly") (some 1) (some "Mon,Wed"))
        ⟨2026, 2, 6⟩) ∧
    (next_occurrence_date (mkRecurring (some "weekly") (some 1) (some "Mon,Wed"))
        ⟨2026, 2, 6⟩).weekday ∈ [Wd.mon, Wd.wed] := by
  refine ⟨?_, by decide, by decide⟩
  have hmax : max (task.recurrence_interval.getD 1) 1 = task.recurrence_interval.getD 1 :=
    max_eq_left hi
  have hSe : (parse_weekdays_csv task.recurrence_weekdays).isEmpty = false := by
    cases hq : (parse_weekdays_csv task.recurrence_weekdays).isEmpty
    · rfl
    · exact absurd (List.isEmpty_iff.mp hq) hS
  have hbridge : next_occurrence_date task anchor =
      (match weeklyScan (parse_weekdays_csv task.recurrence_weekdays)
          (task.recurrence_interval.getD 1) (weekStart anchor) 500 (addDays anchor 1) with
        | some c => c
        | none => addDays anchor (task.recurrence_interval.getD 1 * 7)) := by
    simp only [next_occurrence_date, hty, hSe, hmax]
    simp
  rw [hbridge]
  rcases hscan : weeklyScan (parse_weekdays_csv task.recurrence_weekdays)
      (task.recurrence_interval.getD 1) (weekStart anchor) 500 (addDays anchor 1)
    with _ | c
  · refine Or.inr ⟨rfl, ?_⟩
    intro j h1 h500
    obtain ⟨jj, rfl⟩ : ∃ jj, j = jj + 1 := ⟨j - 1, by omega⟩
    have hfalse := weeklyScan_none_spec _ _ _ _ _ hscan jj (by omega)
    rw [addDays_one, ← Function.iterate_succ_apply] at hfalse
    rw [addDays_natCast]
    intro hcand
    rw [← weeklyPred_iff_candidate] at hcand
    rw [hfalse] at hcand
    cases hcand
  · obtain ⟨k', hk', hc, hpred, hfirst⟩ := weeklyScan_some_spec _ _ _ _ _ _ hscan
    rw [addDays_one, ← Function.iterate_succ_apply] at hc
    refine Or.inl ⟨k' + 1, by omega, by omega, ?_, ?_, ?_⟩
    · rw [addDays_natCast]
      exact hc
    · rw [addDays_natCast, ← weeklyPred_iff_candidate, ← hc]
      exact hpred
    · intro j h1 hj
      obtain ⟨jj, rfl⟩ : ∃ jj, j = jj + 1 := ⟨j - 1, by omega⟩
      have hfalse := hfirst jj (by omega)
      rw [addDays_one, ← Function.iterate_succ_apply] at hfalse
      rw [addDays_natCast]
      intro hcand
      rw [← weeklyPred_iff_candidate] at hcand
      rw [hfalse] at hcand
      cases hcand

/-- Witness for C2 at the concrete rule weekly(1, {Mon,Wed}) and anchor
2026-02-06. -/
theorem claim_C2_witness :
    Date.lt ⟨2026, 2, 6⟩
      (next_occurrence_date (mkRecurring (some "weekly") (some 1) (some "Mon,Wed"))
        ⟨2026, 2, 6⟩) :=
  (claim_C2 (mkRecurring (some "weekly") (some 1) (some "Mon,Wed")) ⟨2026, 2, 6⟩
    (by decide) (by decide) (by decide)).2.1

/-- C3: a monthly rule with interval `≥ 1` advances the anchor by `interval`
months (month normalised to 1–12 with year carry, so the result never rolls
into the following month), keeping the day-of-month clamped downward to the
last valid day of the target month; the service's `next_occurrence` computes
the same date as the repository's `add_months_keep_day`, and
`nextOccurrence(monthly(1), 2026-01-31) = 2026-02-28`. -/
theorem claim_C3 (base : Date) (interval : Int) (hb : base.Valid) (hi : 1 ≤ interval) :
    (∃ (Y : Int) (M : Nat), 1 ≤ M ∧ M ≤ 12 ∧
        12 * Y + (M : Int) = 12 * base.year + (base.month : Int) + interval ∧
        add_months_keep_day base interval = ⟨Y, M, min base.day (daysInMonth Y M)⟩) ∧
    (∀ fuel : Nat, next_occurrence fuel (.monthly interval) base =
        some (add_months_keep_day base interval)) ∧
    next_occurrence 0 (.monthly 1) ⟨2026, 1, 31⟩ = some ⟨2026, 2, 28⟩ := by
  refine ⟨add_months_keep_day_spec hb interval,
    fun fuel => next_occurrence_monthly_eq hb hi fuel, ?_⟩
  unfold next_occurrence
  dsimp only
  norm_num
  rw [monthsUp_eq]
  norm_num
  decide

/-- Witness for C3 at the concrete anchor 2026-01-31 with interval 1. -/
theorem claim_C3_witness :
    next_occurrence 0 (.monthly 1) ⟨2026, 1, 31⟩ = some ⟨2026, 2, 28⟩ :=
  (claim_C3 ⟨2026, 1, 31⟩ 1 (by decide) (by decide)).2.2

/-! ### Weekday-cycle facts and the service's weekly loop -/

theorem wdOfNum_ndfm (w : Wd) : wdOfNum w.ndfm = w := by
  cases w <;> rfl

theorem wdOfNum_inj {a b : Nat} (ha : a < 7) (hb : b < 7) (h : wdOfNum a = wdOfNum b) :
    a = b := by
  interval_cases a <;> interval_cases b <;> simp_all [wdOfNum]

theorem ndfm_lt_7 (w : Wd) : w.ndfm < 7 := by
  cases w <;> norm_num [Wd.ndfm]

theorem weekday_iterate {d : Date} (hd : d.Valid) (k : Nat) :
    (nextDay^[k] d).weekday = wdOfNum ((toRataDie d + k + 6) % 7).toNat := by
  unfold Date.weekday numDaysFromMonday
  rw [toRataDie_iterate_nextDay hd k]

theorem dateDiff_iterate {d : Date} (hd : d.Valid) (k : Nat) :
    dateDiff (nextDay^[k] d) d = k := by
  unfold dateDiff
  rw [toRataDie_iterate_nextDay hd k]
  ring

/-- Any non-empty weekday set is hit within the seven days following `d`. -/
theorem exists_hit_within_7 {d : Date} (hd : d.Valid) {S : List Wd} (hS : S ≠ []) :
    ∃ k : Nat, 1 ≤ k ∧ k ≤ 7 ∧ (nextDay^[k] d).weekday ∈ S := by
  obtain ⟨w, hw⟩ := List.exists_mem_of_ne_nil S hS
  have hlt := ndfm_lt_7 w
  obtain ⟨k, hk1, hk7, hk⟩ :
      ∃ k : Nat, 1 ≤ k ∧ k ≤ 7 ∧ (toRataDie d + k + 6) % 7 = (w.ndfm : Int) := by
    have h0 : 0 ≤ ((w.ndfm : Int) - (toRataDie d + 6)) % 7 := Int.emod_nonneg _ (by norm_num)
    have h7 : ((w.ndfm : Int) - (toRataDie d + 6)) % 7 < 7 := Int.emod_lt_of_pos _ (by norm_num)
    rcases eq_or_ne (((w.ndfm : Int) - (toRataDie d + 6)) % 7) 0 with hz | hnz
    · exact ⟨7, by omega, by omega, by omega⟩
    · refine ⟨(((w.ndfm : Int) - (toRataDie d + 6)) % 7).toNat, by omega, by omega, by omega⟩
  refine ⟨k, hk1, hk7, ?_⟩
  rw [weekday_iterate hd k, hk, Int.toNat_natCast, wdOfNum_ndfm]
  exact hw

theorem firstHit_none_spec (S : List Wd) (d : Date) :
    ∀ n : Nat, firstHit S d n = none →
      ∀ j : Nat, 1 ≤ j → j ≤ n → (nextDay^[j] d).weekday ∉ S := by
  intro n
  induction n with
  | zero => intro _ j h1 h0; omega
  | succ m ih =>
    intro h j h1 hj
    rw [show firstHit S d (m + 1) =
        (match firstHit S d m with
         | some k => some k
         | none => if (nextDay^[m + 1] d).weekday ∈ S then some (m + 1) else none) from rfl] at h
    rcases hm : firstHit S d m with _ | k
    · rw [hm] at h
      dsimp only at h
      rcases Nat.lt_or_ge j (m + 1) with hlt | hge
      · exact ih hm j h1 (by omega)
      · have hj' : j = m + 1 := by omega
        subst hj'
        intro hmem
        rw [if_pos hmem] at h
        cases h
    · rw [hm] at h
      cases h

theorem firstHit_some_spec (S : List Wd) (d : Date) :
    ∀ n k : Nat, firstHit S d n = some k →
      1 ≤ k ∧ k ≤ n ∧ (nextDay^[k] d).weekday ∈ S ∧
        ∀ j : Nat, 1 ≤ j → j < k → (nextDay^[j] d).weekday ∉ S := by
  intro n
  induction n with
  | zero => intro k h; cases h
  | succ m ih =>
    intro k h
    rw [show firstHit S d (m + 1) =
        (match firstHit S d m with
         | some k => some k
         | none => if (nextDay^[m + 1] d).weekday ∈ S then some (m + 1) else none) from rfl] at h
    rcases hm : firstHit S d m with _ | k'
    · rw [hm] at h
      dsimp only at h
      split at h
      · next hmem =>
        cases h
        exact ⟨by omega, le_refl _, hmem, fun j h1 hj => firstHit_none_spec S d m hm j h1 (by omega)⟩
      · cases h
    · rw [hm] at h
      cases h
      obtain ⟨a, b, c, e⟩ := ih _ hm
      exact ⟨a, by omega, c, e⟩

theorem weeklyPred_one (S : List Wd) (ows c : Date) :
    weeklyPred S 1 ows c = S.contains c.weekday := by
  simp [weeklyPred]

/-- If the weekday of `anchor + (j+gap)` is the first member of `S` at or after
position `j`, and `j + gap ≤ 6`, the service's weekly loop started at
`anchor + j` stops there. -/
theorem serviceLoop_hit {S : List Wd} {anchor : Date} (hv : anchor.Valid) :
    ∀ (gap j fuel : Nat), 1 ≤ j → j + gap ≤ 6 →
      (nextDay^[j + gap] anchor).weekday ∈ S →
      (∀ i : Nat, j ≤ i → i < j + gap → (nextDay^[i] anchor).weekday ∉ S) →
      gap < fuel →
      serviceWeeklyLoop S 1 anchor fuel (nextDay^[j] anchor) =
        some (nextDay^[j + gap] anchor) := by
  intro gap
  induction gap with
  | zero =>
    intro j fuel h1 h6 hmem _ hfuel
    rcases fuel with _ | f
    · omega
    · show (if S.contains (nextDay^[j] anchor).weekday then some (nextDay^[j] anchor)
          else _) = _
      rw [if_pos (by simpa using hmem)]
      simp
  | succ g ih =>
    intro j fuel h1 h6 hmem hfirst hfuel
    rcases fuel with _ | f
    · omega
    · show (if S.contains (nextDay^[j] anchor).weekday then some (nextDay^[j] anchor)
          else
            let date' := nextDay (nextDay^[j] anchor)
            if 7 * 1 ≤ dateDiff date' anchor then some date'
            else serviceWeeklyLoop S 1 anchor f date') = _
      rw [if_neg (by simpa using hfirst j (le_refl j) (by omega))]
      have hstep : nextDay (nextDay^[j] anchor) = nextDay^[j + 1] anchor := by
        rw [Function.iterate_succ_apply']
      dsimp only
      rw [hstep, dateDiff_iterate hv (j + 1)]
      rw [if_neg (by push_cast; omega)]
      have := ih (j + 1) f (by omega) (by omega)
        (by rw [show j + 1 + g = j + (g + 1) by omega]; exact hmem)
        (fun i hi hilt => hfirst i (by omega) (by omega)) (by omega)
      rw [this, show j + 1 + g = j + (g + 1) by omega]

/-- If no member of `S` occurs at positions `j..6` after the anchor, the
service's weekly loop (interval 1) bails out at `anchor + 7`. -/
theorem serviceLoop_bail {S : List Wd} {anchor : Date} (hv : anchor.Valid) :
    ∀ (gap j fuel : Nat), j + gap = 6 → 1 ≤ j →
      (∀ i : Nat, j ≤ i → i ≤ 6 → (nextDay^[i] anchor).weekday ∉ S) →
      gap < fuel →
      serviceWeeklyLoop S 1 anchor fuel (nextDay^[j] anchor) =
        some (nextDay^[7] anchor) := by
  intro gap
  induction gap with
  | zero =>
    intro j fuel h6 h1 hnone hfuel
    rcases fuel with _ | f
    · omega
    · show (if S.contains (nextDay^[j] anchor).weekday then some (nextDay^[j] anchor)
          else
            let date' := nextDay (nextDay^[j] anchor)
            if 7 * 1 ≤ dateDiff date' anchor then some date'
            else serviceWeeklyLoop S 1 anchor f date') = _
      rw [if_neg (by simpa using hnone j (le_refl j) (by omega))]
      have hstep : nextDay (nextDay^[j] anchor) = nextDay^[j + 1] anchor := by
        rw [Function.iterate_succ_apply']
      dsimp only
      rw [hstep, dateDiff_iterate hv (j + 1)]
      rw [if_pos (by push_cast; omega), show j + 1 = 7 by omega]
  | succ g ih =>
    intro j fuel h6 h1 hnone hfuel
    rcases fuel with _ | f
    · omega
    · show (if S.contains (nextDay^[j] anchor).weekday then some (nextDay^[j] anchor)
          else
            let date' := nextDay (nextDay^[j] anchor)
            if 7 * 1 ≤ dateDiff date' anchor then some date'
            else serviceWeeklyLoop S 1 anchor f date') = _
      rw [if_neg (by simpa using hnone j (le_refl j) (by omega))]
      have hstep : nextDay (nextDay^[j] anchor) = nextDay^[j + 1] anchor := by
        rw [Function.iterate_succ_apply']
      dsimp only
      rw [hstep, dateDiff_iterate hv (j + 1)]
      rw [if_neg (by push_cast; omega)]
      exact ih (j + 1) f (by omega) (by omega)
        (fun i hi hile => hnone i (by omega) hile) (by omega)

/-! ### Bridging the two weekly implementations (interval 1) -/

theorem next_occurrence_date_weekly_scan (task : Task) (anchor : Date)
    (hty : task.recurrence_type = some "weekly")
    (hne : parse_weekdays_csv task.recurrence_weekdays ≠ []) :
    next_occurrence_date task anchor =
      match weeklyScan (parse_weekdays_csv task.recurrence_weekdays)
          (max (task.recurrence_interval.getD 1) 1) (weekStart anchor) 500
          (addDays anchor 1) with
      | some c => c
      | none => addDays anchor (max (task.recurrence_interval.getD 1) 1 * 7) := by
  have hSe : (parse_weekdays_csv task.recurrence_weekdays).isEmpty = false := by
    cases hq : (parse_weekdays_csv task.recurrence_weekdays).isEmpty
    · rfl
    · exact absurd (List.isEmpty_iff.mp hq) hne
  simp only [next_occurrence_date, hty, hSe]
  simp

theorem next_occurrence_date_weekly_empty (task : Task) (anchor : Date)
    (hty : task.recurrence_type = some "weekly")
    (he : parse_weekdays_csv task.recurrence_weekdays = []) :
    next_occurrence_date task anchor =
      addDays anchor (max (task.recurrence_interval.getD 1) 1 * 7) := by
  simp only [next_occurrence_date, hty, he]
  simp

theorem next_occurrence_weekly_loop (fuel : Nat) (interval : Int)
    (wds : Option (List Wd)) (anchor : Date) :
    next_occurrence fuel (.weekly interval wds) anchor =
      serviceWeeklyLoop (wds.getD [anchor.weekday]) interval anchor fuel
        (addDays anchor 1) := rfl

/-- With interval 1 the repo's scan returns the first weekday hit after the
anchor (which always exists within 7 days when the set is non-empty). -/
theorem repo_weekly_one_firstHit (task : Task) (anchor : Date)
    (hty : task.recurrence_type = some "weekly")
    (hone : task.recurrence_interval.getD 1 = 1)
    (hne : parse_weekdays_csv task.recurrence_weekdays ≠ []) (k : Nat)
    (hfh : firstHit (parse_weekdays_csv task.recurrence_weekdays) anchor 7 = some k) :
    next_occurrence_date task anchor = nextDay^[k] anchor := by
  obtain ⟨hk1, hk7, hmem, hfirst⟩ := firstHit_some_spec _ _ _ _ hfh
  obtain ⟨kk, rfl⟩ : ∃ kk, k = kk + 1 := ⟨k - 1, by omega⟩
  rw [next_occurrence_date_weekly_scan task anchor hty hne, hone]
  have hmax : max (1 : Int) 1 = 1 := by norm_num
  rw [hmax]
  have hscan := weeklyScan_hit (parse_weekdays_csv task.recurrence_weekdays) 1
      (weekStart anchor) kk 500 (addDays anchor 1) (by omega) ?_ ?_
  · rw [hscan]
    rw [addDays_one, ← Function.iterate_succ_apply]
  · rw [addDays_one, ← Function.iterate_succ_apply, weeklyPred_one]
    simpa using hmem
  · intro j hj
    rw [addDays_one, ← Function.iterate_succ_apply, weeklyPred_one]
    simpa using hfirst (j + 1) (by omega) (by omega)

/-- With interval 1 the service's loop returns the first weekday hit in the
six days after the anchor, or the bail-out value `anchor + 7` days. -/
theorem service_weekly_one {S : List Wd} {anchor : Date} (hv : anchor.Valid)
    (fuel : Nat) (hf : 6 ≤ fuel) :
    serviceWeeklyLoop S 1 anchor fuel (addDays anchor 1) =
      some (nextDay^[(match firstHit S anchor 7 with
                      | some k => k
                      | none => 7)] anchor) := by
  have hstart : addDays anchor 1 = nextDay^[1] anchor := by
    rw [addDays_one, Function.iterate_one]
  rcases hfh : firstHit S anchor 7 with _ | k
  · have hnone := firstHit_none_spec S anchor 7 hfh
    rw [hstart]
    exact serviceLoop_bail hv 5 1 fuel (by omega) (le_refl 1)
      (fun i hi hile => hnone i hi (by omega)) (by omega)
  · obtain ⟨hk1, hk7, hmem, hfirst⟩ := firstHit_some_spec _ _ _ _ hfh
    rcases Nat.lt_or_ge k 7 with hk6 | hk7'
    · rw [hstart]
      have := serviceLoop_hit hv (k - 1) 1 fuel (le_refl 1) (by omega)
        (by rw [show 1 + (k - 1) = k by omega]; exact hmem)
        (fun i hi hilt => hfirst i hi (by omega)) (by omega)
      rw [this, show 1 + (k - 1) = k by omega]
    · have hk : k = 7 := by omega
      subst hk
      rw [hstart]
      exact serviceLoop_bail hv 5 1 fuel (by omega) (le_refl 1)
        (fun i hi hile => hfirst i hi (by omega)) (by omega)

theorem weekday_iterate_eq_self {d : Date} (hd : d.Valid) (k : Nat)
    (h : (nextDay^[k] d).weekday = d.weekday) : k % 7 = 0 := by
  rw [weekday_iterate hd k] at h
  unfold Date.weekday numDaysFromMonday at h
  have e1 := Int.emod_lt_of_pos (toRataDie d + k + 6) (by norm_num : (0:Int) < 7)
  have e2 := Int.emod_nonneg (toRataDie d + k + 6) (by norm_num : (7:Int) ≠ 0)
  have e3 := Int.emod_lt_of_pos (toRataDie d + 6) (by norm_num : (0:Int) < 7)
  have e4 := Int.emod_nonneg (toRataDie d + 6) (by norm_num : (7:Int) ≠ 0)
  have := wdOfNum_inj (a := ((toRataDie d + k + 6) % 7).toNat)
    (b := ((toRataDie d + 6) % 7).toNat) (by omega) (by omega) h
  omega

/-- The two weekly implementations agree whenever the interval is 1:
the service function (given enough fuel to finish) returns exactly the
repository's result, for a task carrying the corresponding weekday CSV. -/
theorem weekly_one_equiv (anchor : Date) (hv : anchor.Valid)
    (wds : Option (List Wd)) (csv : Option String)
    (hmap : parse_weekdays_csv csv = wds.getD [])
    (fuel : Nat) (hf : 7 ≤ fuel) :
    next_occurrence fuel (.weekly 1 wds) anchor =
      some (next_occurrence_date (mkRecurring (some "weekly") (some 1) csv) anchor) := by
  have hty : (mkRecurring (some "weekly") (some 1) csv).recurrence_type = some "weekly" := rfl
  have hone : (mkRecurring (some "weekly") (some 1) csv).recurrence_interval.getD 1 = 1 := rfl
  have hwd : (mkRecurring (some "weekly") (some 1) csv).recurrence_weekdays = csv := rfl
  rw [next_occurrence_weekly_loop]
  rcases wds with _ | l
  · -- no weekday set: the service defaults to the anchor's own weekday and
    -- bails out at anchor + 7; the repo sees an empty parsed set and returns
    -- anchor + 7 directly.
    have hempty : parse_weekdays_csv (mkRecurring (some "weekly") (some 1) csv).recurrence_weekdays = [] := by
      rw [hwd]
      simpa using hmap
    rw [next_occurrence_date_weekly_empty _ anchor hty hempty, hone]
    rw [service_weekly_one hv fuel (by omega)]
    have hself : ∀ k : Nat, firstHit [anchor.weekday] anchor 7 = some k → k = 7 := by
      intro k hfh
      obtain ⟨hk1, hk7, hmem, -⟩ := firstHit_some_spec _ _ _ _ hfh
      have heq : (nextDay^[k] anchor).weekday = anchor.weekday := by simpa using hmem
      have := weekday_iterate_eq_self hv k heq
      omega
    have h7 : (match firstHit [anchor.weekday] anchor 7 with
               | some k => k
               | none => 7) = 7 := by
      rcases hfh : firstHit [anchor.weekday] anchor 7 with _ | k
      · rfl
      · simpa using hself k hfh
    simp only [Option.getD]
    rw [h7]
    have h77 : addDays anchor (max (1 : Int) 1 * 7) = nextDay^[7] anchor := by
      have he : max (1 : Int) 1 * 7 = ((7 : Nat) : Int) := by norm_num
      rw [he, addDays_natCast]
    rw [h77]
  · -- explicit weekday set (possibly empty)
    have hparse : parse_weekdays_csv (mkRecurring (some "weekly") (some 1) csv).recurrence_weekdays = l := by
      rw [hwd]
      simpa using hmap
    rcases eq_or_ne l [] with rfl | hne
    · rw [next_occurrence_date_weekly_empty _ anchor hty hparse, hone]
      rw [service_weekly_one hv fuel (by omega)]
      have h7 : (match firstHit [] anchor 7 with
                 | some k => k
                 | none => 7) = 7 := by
        rcases hfh : firstHit ([] : List Wd) anchor 7 with _ | k
        · rfl
        · obtain ⟨-, -, hmem, -⟩ := firstHit_some_spec _ _ _ _ hfh
          cases hmem
      simp only [Option.getD]
      rw [h7]
      have h77 : addDays anchor (max (1 : Int) 1 * 7) = nextDay^[7] anchor := by
        have he : max (1 : Int) 1 * 7 = ((7 : Nat) : Int) := by norm_num
        rw [he, addDays_natCast]
      rw [h77]
    · rcases hfh : firstHit l anchor 7 with _ | k
      · exfalso
        obtain ⟨k, hk1, hk7, hmem⟩ := exists_hit_within_7 hv hne
        exact firstHit_none_spec l anchor 7 hfh k hk1 hk7 hmem
      · rw [repo_weekly_one_firstHit _ anchor hty hone (by rw [hparse]; exact hne) k
          (by rw [hparse]; exact hfh)]
        rw [service_weekly_one hv fuel (by omega)]
        simp only [Option.getD]
        rw [hfh]

/-- C10 (counterexample): for the weekly rule with interval 2 and weekday set
{Mon}, anchored at Monday 2026-02-02, the service's `next_occurrence` returns
2026-02-09 while the repository's `next_occurrence_date` (which additionally
requires the Monday-aligned week distance to be a multiple of the interval)
returns 2026-02-16 — so the two implementations do not agree on every rule. -/
theorem claim_C10_counterexample :
    next_occurrence 100 (.weekly 2 (some [.mon])) ⟨2026, 2, 2⟩ = some ⟨2026, 2, 9⟩ ∧
    next_occurrence_date (mkRecurring (some "weekly") (some 2) (some "Mon"))
        ⟨2026, 2, 2⟩ = ⟨2026, 2, 16⟩ ∧
    next_occurrence 100 (.weekly 2 (some [.mon])) ⟨2026, 2, 2⟩ ≠
      some (next_occurrence_date (mkRecurring (some "weekly") (some 2) (some "Mon"))
        ⟨2026, 2, 2⟩) :=
  ⟨by decide, by decide, by decide⟩

/-- C10 (amended): the two recurrence implementations agree for daily rules,
for monthly rules, and for weekly rules with interval 1 (with or without a
weekday set, the task carrying the corresponding CSV); for weekly rules with
interval ≥ 2 they can disagree, as the counterexample shows. -/
theorem claim_C10_amended (anchor : Date) (hv : anchor.Valid) (interval : Int)
    (hi : 1 ≤ interval) :
    (∀ fuel : Nat, next_occurrence fuel (.daily interval) anchor =
        some (next_occurrence_date (mkRecurring (some "daily") (some interval) none)
          anchor)) ∧
    (∀ fuel : Nat, next_occurrence fuel (.monthly interval) anchor =
        some (next_occurrence_date (mkRecurring (some "monthly") (some interval) none)
          anchor)) ∧
    (∀ (wds : Option (List Wd)) (csv : Option String),
        parse_weekdays_csv csv = wds.getD [] →
        ∀ fuel : Nat, 7 ≤ fuel →
          next_occurrence fuel (.weekly 1 wds) anchor =
            some (next_occurrence_date (mkRecurring (some "weekly") (some 1) csv)
              anchor)) := by
  have hmax : max interval 1 = interval := max_eq_left hi
  refine ⟨?_, ?_, ?_⟩
  · intro fuel
    show some (addDays anchor interval) = _
    simp [next_occurrence_date, mkRecurring, hmax]
  · intro fuel
    rw [next_occurrence_monthly_eq hv hi fuel]
    congr 1
    simp [next_occurrence_date, mkRecurring, hmax]
  · intro wds csv hmap fuel hf
    exact weekly_one_equiv anchor hv wds csv hmap fuel hf

/-- Witness for the amended C10 at the concrete anchor 2026-02-06, interval 1
(daily case). -/
theorem claim_C10_amended_witness :
    next_occurrence 0 (.daily 1) ⟨2026, 2, 6⟩ =
      some (next_occurrence_date (mkRecurring (some "daily") (some 1) none)
        ⟨2026, 2, 6⟩) :=
  (claim_C10_amended ⟨2026, 2, 6⟩ (by decide) 1 (by decide)).1 0

/-! ### Progress of `next_occurrence_date` and termination of the catch-up loop -/

theorem next_occurrence_date_daily (task : Task) (anchor : Date)
    (hty : task.recurrence_type = some "daily") :
    next_occurrence_date task anchor =
      addDays anchor (max (task.recurrence_interval.getD 1) 1) := by
  simp [next_occurrence_date, hty]

theorem next_occurrence_date_monthly (task : Task) (anchor : Date)
    (hty : task.recurrence_type = some "monthly") :
    next_occurrence_date task anchor =
      add_months_keep_day anchor (max (task.recurrence_interval.getD 1) 1) := by
  simp [next_occurrence_date, hty]

theorem date_lt_mk {a : Date} {Y : Int} {M D : Nat}
    (h : a.year < Y ∨ (a.year = Y ∧ (a.month < M ∨ (a.month = M ∧ a.day < D)))) :
    Date.lt a ⟨Y, M, D⟩ := h

theorem date_le_of_not_lt {a b : Date} (h : ¬ Date.lt a b) : Date.le b a := by
  obtain ⟨ya, ma, da⟩ := a
  obtain ⟨yb, mb, dbv⟩ := b
  simp only [Date.lt, Date.le, Date.mk.injEq] at *
  omega

/-- For a recognised recurrence type, one application of `next_occurrence_date`
to a valid date yields a valid, strictly later date. -/
theorem next_occurrence_date_progress {task : Task} {d : Date} (hd : d.Valid)
    (hty : task.recurrence_type = some "daily" ∨ task.recurrence_type = some "weekly" ∨
      task.recurrence_type = some "monthly") :
    (next_occurrence_date task d).Valid ∧
      toRataDie d < toRataDie (next_occurrence_date task d) := by
  have himax : (1 : Int) ≤ max (task.recurrence_interval.getD 1) 1 := le_max_right _ _
  have h7 : (7 : Int) ≤ max (task.recurrence_interval.getD 1) 1 * 7 := by
    have := mul_le_mul_of_nonneg_right himax (by norm_num : (0 : Int) ≤ 7)
    omega
  rcases hty with h | h | h
  · rw [next_occurrence_date_daily task d h]
    refine ⟨hd.addDays_nonneg (by omega), ?_⟩
    rw [toRataDie_addDays hd (by omega)]
    omega
  · rcases eq_or_ne (parse_weekdays_csv task.recurrence_weekdays) [] with he | hne
    · rw [next_occurrence_date_weekly_empty task d h he]
      refine ⟨hd.addDays_nonneg (by omega), ?_⟩
      rw [toRataDie_addDays hd (by omega)]
      omega
    · rw [next_occurrence_date_weekly_scan task d h hne]
      rcases hscan : weeklyScan (parse_weekdays_csv task.recurrence_weekdays)
          (max (task.recurrence_interval.getD 1) 1) (weekStart d) 500 (addDays d 1)
        with _ | c
      · refine ⟨hd.addDays_nonneg (by omega), ?_⟩
        rw [toRataDie_addDays hd (by omega)]
        omega
      · obtain ⟨k, hk, hc, -, -⟩ := weeklyScan_some_spec _ _ _ _ _ _ hscan
        rw [addDays_one, ← Function.iterate_succ_apply] at hc
        subst hc
        refine ⟨valid_iterate_nextDay hd (k + 1), ?_⟩
        rw [toRataDie_iterate_nextDay hd (k + 1)]
        omega
  · obtain ⟨Y, M, hM1, hM2, he, hr⟩ :=
      add_months_keep_day_spec hd (max (task.recurrence_interval.getD 1) 1)
    rw [next_occurrence_date_monthly task d h, hr]
    have hdim := daysInMonth_pos (y := Y) hM1 hM2
    have hday := hd.2.2.1
    have hm1 := hd.1
    have hm12 := hd.2.1
    constructor
    · exact valid_mk hM1 hM2 (by omega) (Nat.min_le_right _ _)
    · refine toRataDie_strictMono hd (valid_mk hM1 hM2 (by omega) (Nat.min_le_right _ _)) ?_
      apply date_lt_mk
      rcases lt_trichotomy d.year Y with hlt | heq | hgt
      · exact Or.inl hlt
      · exact Or.inr ⟨heq, Or.inl (by omega)⟩
      · exfalso
        omega

theorem catchUp_terminates (task : Task) (today : Date) (htoday : today.Valid) :
    ∀ (n : Nat) (date : Date), date.Valid →
      (toRataDie today - toRataDie date).toNat ≤ n →
      (task.recurrence_type = some "daily" ∨ task.recurrence_type = some "weekly" ∨
        task.recurrence_type = some "monthly") →
      ∃ (fuel : Nat) (result : Date), catchUp task today fuel date = some result ∧
        result.Valid ∧ Date.le today result := by
  intro n
  induction n with
  | zero =>
    intro date hv hm hty
    have hnlt : ¬ Date.lt date today := fun hlt => by
      have := toRataDie_strictMono hv htoday hlt
      omega
    refine ⟨0, date, ?_, hv, date_le_of_not_lt hnlt⟩
    show (if Date.lt date today then none else some date) = some date
    rw [if_neg hnlt]
  | succ n ih =>
    intro date hv hm hty
    by_cases hlt : Date.lt date today
    · have hprog := next_occurrence_date_progress hv hty
      have hlt_rd := toRataDie_strictMono hv htoday hlt
      obtain ⟨fuel, result, hres, hval, hle⟩ :=
        ih (next_occurrence_date task date) hprog.1 (by omega) hty
      refine ⟨fuel + 1, result, ?_, hval, hle⟩
      show (if Date.lt date today then catchUp task today fuel (next_occurrence_date task date)
          else some date) = some result
      rw [if_pos hlt]
      exact hres
    · refine ⟨0, date, ?_, hv, date_le_of_not_lt hlt⟩
      show (if Date.lt date today then none else some date) = some date
      rw [if_neg hlt]

/-- C6: for every non-done recurring task whose recurrence type is daily,
weekly or monthly (interval ≥ 1) and whose target date is strictly before
today, the catch-up loop of `ensure_recurrences` — repeatedly replacing the
date by `next_occurrence_date` — terminates (some finite fuel makes the
fuel-indexed loop return), and the resulting stored target date is valid and
greater than or equal to today. -/
theorem claim_C6 (task : Task) (today date : Date)
    (htoday : today.Valid) (hdate : date.Valid)
    (hty : task.recurrence_type = some "daily" ∨ task.recurrence_type = some "weekly" ∨
      task.recurrence_type = some "monthly")
    (hint : 1 ≤ task.recurrence_interval.getD 1)
    (hbehind : Date.lt date today) :
    ∃ (fuel : Nat) (result : Date), catchUp task today fuel date = some result ∧
      result.Valid ∧ Date.le today result :=
  catchUp_terminates task today htoday (toRataDie today - toRataDie date).toNat date hdate
    (le_refl _) hty

/-- Witness for C6: a daily task two days behind today. -/
theorem claim_C6_witness :
    ∃ (fuel : Nat) (result : Date),
      catchUp (mkRecurring (some "daily") (some 1) none) ⟨2026, 2, 8⟩ fuel ⟨2026, 2, 6⟩ =
        some result ∧ result.Valid ∧ Date.le ⟨2026, 2, 8⟩ result :=
  claim_C6 (mkRecurring (some "daily") (some 1) none) ⟨2026, 2, 8⟩ ⟨2026, 2, 6⟩
    (by decide) (by decide) (Or.inl rfl) (by decide) (by decide)

/-! ### Tag-normalisation facts -/

theorem head?_dropWhile_not (p : Char → Bool) :
    ∀ (l : List Char) (c : Char), (l.dropWhile p).head? = some c → p c = false := by
  intro l
  induction l with
  | nil => intro c h; cases h
  | cons a rest ih =>
    intro c h
    rw [List.dropWhile_cons] at h
    split at h
    · exact ih c h
    · next hp =>
      cases h
      rw [Bool.not_eq_true] at hp
      exact hp

theorem getLast?_dropWhile (p : Char → Bool) :
    ∀ l : List Char, l.dropWhile p ≠ [] → (l.dropWhile p).getLast? = l.getLast? := by
  intro l
  induction l with
  | nil => intro h; simp at h
  | cons a rest ih =>
    intro h
    by_cases hp : p a = true
    · rw [List.dropWhile_cons, if_pos hp] at h ⊢
      rw [ih h]
      rcases rest with _ | ⟨b, rest'⟩
      · simp at h
      · rw [List.getLast?_cons_cons]
    · rw [List.dropWhile_cons, if_neg hp]

theorem trim_aux_dropWhile (q : Char → Bool) (x : List Char) :
    (((x.dropWhile q).reverse.dropWhile q).reverse).dropWhile q =
      ((x.dropWhile q).reverse.dropWhile q).reverse := by
  rcases hrev : ((x.dropWhile q).reverse.dropWhile q).reverse with _ | ⟨c, T⟩
  · rfl
  · have hhead : (((x.dropWhile q).reverse.dropWhile q).reverse).head? = some c := by
      rw [hrev]
      rfl
    rw [List.head?_reverse] at hhead
    have hCne : (x.dropWhile q).reverse.dropWhile q ≠ [] := by
      intro he
      rw [he] at hrev
      simp at hrev
    rw [getLast?_dropWhile q _ hCne, List.getLast?_reverse] at hhead
    have hc := head?_dropWhile_not q x c hhead
    have hcf : ¬ (q c = true) := by simp [hc]
    rw [List.dropWhile_cons, if_neg hcf]

/-- Rust `str::trim` is idempotent. -/
theorem trimChars_idem (l : List Char) : trimChars (trimChars l) = trimChars l := by
  unfold trimChars
  rw [trim_aux_dropWhile, List.reverse_reverse]
  exact trim_aux_dropWhile Char.isWhitespace l

theorem strTrim_idem (s : String) : strTrim (strTrim s) = strTrim s := by
  show String.mk (trimChars (trimChars s.data)) = String.mk (trimChars s.data)
  exact congrArg String.mk (trimChars_idem s.data)

/-- The normaliser computes exactly "trim, drop empties, then first-occurrence
case-insensitive dedup". -/
theorem normalizeTagsGo_eq_dedup : ∀ (ts seen : List String),
    normalizeTagsGo ts seen =
      firstOccurrenceDedup ((ts.map strTrim).filter (fun s => decide (s ≠ ""))) seen := by
  intro ts
  induction ts with
  | nil => intro seen; rfl
  | cons a ts ih =>
    intro seen
    show (if strTrim a = "" then normalizeTagsGo ts seen
        else if strToLower (strTrim a) ∈ seen then normalizeTagsGo ts seen
        else strTrim a :: normalizeTagsGo ts (strToLower (strTrim a) :: seen)) =
      firstOccurrenceDedup (((a :: ts).map strTrim).filter (fun s => decide (s ≠ ""))) seen
    rw [List.map_cons, List.filter_cons]
    by_cases he : strTrim a = ""
    · have hcf : ¬ (decide (strTrim a ≠ "") = true) := by simp [he]
      rw [if_pos he, if_neg hcf]
      exact ih seen
    · have hct : decide (strTrim a ≠ "") = true := by simp [he]
      rw [if_neg he, if_pos hct]
      show (if strToLower (strTrim a) ∈ seen then normalizeTagsGo ts seen
          else strTrim a :: normalizeTagsGo ts (strToLower (strTrim a) :: seen)) =
        (if strToLower (strTrim a) ∈ seen
         then firstOccurrenceDedup ((ts.map strTrim).filter (fun s => decide (s ≠ ""))) seen
         else strTrim a :: firstOccurrenceDedup ((ts.map strTrim).filter (fun s => decide (s ≠ "")))
           (strToLower (strTrim a) :: seen))
      by_cases hk : strToLower (strTrim a) ∈ seen
      · rw [if_pos hk, if_pos hk]
        exact ih seen
      · rw [if_neg hk, if_neg hk, ih (strToLower (strTrim a) :: seen)]

theorem normalizeTagsGo_trimmed : ∀ (ts seen : List String),
    ∀ t ∈ normalizeTagsGo ts seen, strTrim t = t ∧ t ≠ "" := by
  intro ts
  induction ts with
  | nil => intro seen t ht; simp [normalizeTagsGo] at ht
  | cons a ts ih =>
    intro seen t ht
    rw [show normalizeTagsGo (a :: ts) seen =
        (if strTrim a = "" then normalizeTagsGo ts seen
         else if strToLower (strTrim a) ∈ seen then normalizeTagsGo ts seen
         else strTrim a :: normalizeTagsGo ts (strToLower (strTrim a) :: seen)) from rfl] at ht
    by_cases he : strTrim a = ""
    · rw [if_pos he] at ht
      exact ih seen t ht
    · rw [if_neg he] at ht
      by_cases hk : strToLower (strTrim a) ∈ seen
      · rw [if_pos hk] at ht
        exact ih seen t ht
      · rw [if_neg hk] at ht
        rcases List.mem_cons.mp ht with rfl | hmem
        · exact ⟨strTrim_idem a, he⟩
        · exact ih _ t hmem

theorem normalizeTagsGo_keys : ∀ (ts seen : List String),
    ((normalizeTagsGo ts seen).map strToLower).Nodup ∧
      ∀ t ∈ normalizeTagsGo ts seen, strToLower t ∉ seen := by
  intro ts
  induction ts with
  | nil => intro seen; exact ⟨List.nodup_nil, by intro t ht; simp [normalizeTagsGo] at ht⟩
  | cons a ts ih =>
    intro seen
    rw [show normalizeTagsGo (a :: ts) seen =
        (if strTrim a = "" then normalizeTagsGo ts seen
         else if strToLower (strTrim a) ∈ seen then normalizeTagsGo ts seen
         else strTrim a :: normalizeTagsGo ts (strToLower (strTrim a) :: seen)) from rfl]
    by_cases he : strTrim a = ""
    · rw [if_pos he]
      exact ih seen
    · rw [if_neg he]
      by_cases hk : strToLower (strTrim a) ∈ seen
      · rw [if_pos hk]
        exact ih seen
      · rw [if_neg hk]
        obtain ⟨hnodup, hnot⟩ := ih (strToLower (strTrim a) :: seen)
        constructor
        · rw [List.map_cons, List.nodup_cons]
          refine ⟨?_, hnodup⟩
          intro hmem
          obtain ⟨u, hu, hequ⟩ := List.mem_map.mp hmem
          have := hnot u hu
          rw [hequ] at this
          exact this (List.mem_cons_self _ _)
        · intro t ht
          rcases List.mem_cons.mp ht with rfl | hmem
          · exact hk
          · intro hseen
            exact hnot t hmem (List.mem_cons_of_mem _ hseen)

theorem normalizeTagsGo_fixed : ∀ (ts seen : List String),
    (∀ t ∈ ts, strTrim t = t ∧ t ≠ "") → (ts.map strToLower).Nodup →
    (∀ t ∈ ts, strToLower t ∉ seen) →
    normalizeTagsGo ts seen = ts := by
  intro ts
  induction ts with
  | nil => intro seen _ _ _; rfl
  | cons a ts ih =>
    intro seen helem hnodup hseen
    obtain ⟨htr, hne⟩ := helem a (List.mem_cons_self _ _)
    rw [List.map_cons, List.nodup_cons] at hnodup
    show (if strTrim a = "" then normalizeTagsGo ts seen
        else if strToLower (strTrim a) ∈ seen then normalizeTagsGo ts seen
        else strTrim a :: normalizeTagsGo ts (strToLower (strTrim a) :: seen)) = a :: ts
    rw [htr, if_neg hne, if_neg (hseen a (List.mem_cons_self _ _))]
    congr 1
    apply ih
    · exact fun t ht => helem t (List.mem_cons_of_mem _ ht)
    · exact hnodup.2
    · intro t ht
      rw [List.mem_cons]
      rintro (heq | hmem)
      · exact hnodup.1 (heq ▸ List.mem_map.mpr ⟨t, ht, rfl⟩)
      · exact hseen t (List.mem_cons_of_mem _ ht) hmem

/-- C7: `normalize_task_tags` trims each tag, drops empties, and deduplicates
case-insensitively keeping the casing and position of each key's first
occurrence (it equals the spec-side `firstOccurrenceDedup` of the trimmed,
non-empty tags); its output has pairwise-distinct lowercased keys and only
trimmed non-empty tags; it is idempotent; and
`normalize(["Work","work"]) = ["Work"]`. -/
theorem claim_C7 (x : List String) :
    normalize_task_tags x =
      firstOccurrenceDedup ((x.map strTrim).filter (fun s => decide (s ≠ ""))) [] ∧
    ((normalize_task_tags x).map strToLower).Nodup ∧
    (∀ t ∈ normalize_task_tags x, strTrim t = t ∧ t ≠ "") ∧
    normalize_task_tags (normalize_task_tags x) = normalize_task_tags x ∧
    normalize_task_tags ["Work", "work"] = ["Work"] := by
  refine ⟨normalizeTagsGo_eq_dedup x [], (normalizeTagsGo_keys x []).1,
    normalizeTagsGo_trimmed x [], ?_, by decide⟩
  apply normalizeTagsGo_fixed
  · exact normalizeTagsGo_trimmed x []
  · exact (normalizeTagsGo_keys x []).1
  · intro t _ h
    simp at h

/-- Witness for C7 at the concrete tag list `["Work", "work"]`. -/
theorem claim_C7_witness : normalize_task_tags ["Work", "work"] = ["Work"] :=
  (claim_C7 ["Work", "work"]).2.2.2.2

/-! ### The rollover sweep (claims C1 and C5) -/

theorem charListLt_self : ∀ l : List Char, charListLt l l = false
  | [] => rfl
  | a :: l => by
    simp only [charListLt, lt_irrefl, if_false]
    exact charListLt_self l

theorem strLt_irrefl (s : String) : strLt s s = false := charListLt_self s.data

theorem strLt_ne {s t : String} (h : strLt s t = true) : s ≠ t := by
  rintro rfl
  rw [strLt_irrefl] at h
  exact Bool.false_ne_true h

/-- Membership in the overdue selection, unfolded. -/
theorem mem_overdueRows_iff (today : String) (db : List Task) (p : String × String) :
    p ∈ overdueRows today db ↔
      ∃ t ∈ db, p = (t.id, t.target_date) ∧
        strLt t.target_date today = true ∧ t.status ≠ "done" := by
  simp only [overdueRows, List.mem_map, List.mem_filter, Bool.and_eq_true,
    Bool.not_eq_true', beq_eq_false_iff_ne]
  constructor
  · rintro ⟨t, ⟨ht, hlt, hs⟩, rfl⟩
    exact ⟨t, ht, rfl, hlt, hs⟩
  · rintro ⟨t, ht, rfl, hlt, hs⟩
    exact ⟨t, ⟨ht, hlt, hs⟩, rfl⟩

/-- A `Forall₂` pair list has a left partner for every right member. -/
theorem forall2_partner {α β : Type} {R : α → β → Prop} :
    ∀ {l₁ : List α} {l₂ : List β}, List.Forall₂ R l₁ l₂ →
      ∀ u ∈ l₂, ∃ t ∈ l₁, R t u := by
  intro l₁ l₂ h
  induction h with
  | nil => intro u hu; cases hu
  | cons hr _ ih =>
    intro u hu
    rcases List.mem_cons.mp hu with rfl | hu'
    · exact ⟨_, List.mem_cons_self _ _, hr⟩
    · obtain ⟨t, ht, hR⟩ := ih u hu'
      exact ⟨t, List.mem_cons_of_mem _ ht, hR⟩

/-- Pointwise effect of the rollover loop: every row keeps its status and is
either untouched or moved to today, and every row whose id was selected ends
up with `target_date = today`. -/
theorem rolloverGo_rel (today now : String) (rs : List (String × String)) :
    ∀ db : List Task,
      List.Forall₂ (fun t u => u.status = t.status ∧ (u = t ∨ u.target_date = today) ∧
          (t.id ∈ rs.map Prod.fst → u.target_date = today))
        db (rolloverGo today now rs db) := by
  induction rs with
  | nil =>
    intro db
    simp only [rolloverGo]
    refine List.forall₂_same.mpr fun t _ => ⟨rfl, Or.inl rfl, ?_⟩
    simp
  | cons r rs ih =>
    intro db
    simp only [rolloverGo]
    have h2 := ih (updateById db r.1 (rollRow today now r.2 (next_sort_order db today true)))
    rw [updateById, List.forall₂_map_left_iff] at h2
    refine h2.imp ?_
    intro t u hrel
    by_cases hid : t.id = r.1
    · rw [if_pos (by simp [hid])] at hrel
      obtain ⟨hs, hu, _⟩ := hrel
      refine ⟨hs, ?_, fun _ => ?_⟩
      · rcases hu with rfl | h
        · exact Or.inr rfl
        · exact Or.inr h
      · rcases hu with rfl | h
        · rfl
        · exact h
    · rw [if_neg (by simp [hid])] at hrel
      obtain ⟨hs, hu, hsel⟩ := hrel
      refine ⟨hs, hu, fun hmem => ?_⟩
      simp only [List.map_cons, List.mem_cons] at hmem
      rcases hmem with h1 | h2'
      · exact absurd h1 hid
      · exact hsel h2'

/-- After one sweep, the overdue selection of the same day is empty. -/
theorem overdueRows_after_empty (today now : String) (db : List Task) :
    overdueRows today (rolloverGo today now (overdueRows today db) db) = [] := by
  have hrel := rolloverGo_rel today now (overdueRows today db) db
  rw [overdueRows, List.map_eq_nil_iff, List.filter_eq_nil_iff]
  intro u hu hsel
  rw [Bool.and_eq_true, Bool.not_eq_true', beq_eq_false_iff_ne] at hsel
  obtain ⟨hlt, hst⟩ := hsel
  obtain ⟨t, ht, _, hor, hselid⟩ := forall2_partner hrel u hu
  have htoday : u.target_date = today := by
    rcases hor with rfl | h
    · -- u = t: then t itself was selected, so its id is in the selection
      apply hselid
      have : (u.id, u.target_date) ∈ overdueRows today db := by
        rw [mem_overdueRows_iff]
        exact ⟨u, ht, rfl, hlt, hst⟩
      exact List.mem_map.mpr ⟨(u.id, u.target_date), this, rfl⟩
    · exact h
  rw [htoday] at hlt
  rw [strLt_irrefl] at hlt
  exact Bool.false_ne_true hlt

/-- C5: the rollover sweep is idempotent within a day.  Every selected row
comes from a task with `target_date` strictly before `today` and status other
than `done`; a pair whose date is `today` (in particular a row already moved
by an earlier run the same day) is never selected; and running the sweep a
second time on the swept table moves nothing (count 0) and changes no task. -/
theorem claim_C5 (today now now2 : String) (db : List Task) :
    (∀ p ∈ overdueRows today db, ∃ t ∈ db, p = (t.id, t.target_date) ∧
        strLt t.target_date today = true ∧ t.status ≠ "done") ∧
    (∀ id, (id, today) ∉ overdueRows today db) ∧
    rollover_tasks today now2 (rollover_tasks today now db).1 =
      ((rollover_tasks today now db).1, 0) := by
  refine ⟨fun p hp => (mem_overdueRows_iff today db p).mp hp, ?_, ?_⟩
  · intro id hmem
    obtain ⟨t, _, heq, hlt, _⟩ := (mem_overdueRows_iff today db _).mp hmem
    injection heq with h1 h2
    rw [h2, strLt_irrefl] at hlt
    exact Bool.false_ne_true hlt
  · have hempty := overdueRows_after_empty today now db
    show rollover_tasks today now2 (rolloverGo today now (overdueRows today db) db) = _
    unfold rollover_tasks
    rw [hempty]
    simp [rolloverGo]

theorem le_foldl_max (l : List Int) (v : Int) : v ≤ l.foldl max v := by
  induction l generalizing v with
  | nil => exact le_refl v
  | cons a l ih => exact le_trans (le_max_left v a) (ih (max v a))

theorem mem_le_foldl_max (l : List Int) (v : Int) : ∀ x ∈ l, x ≤ l.foldl max v := by
  induction l generalizing v with
  | nil => intro x hx; cases hx
  | cons a l ih =>
    intro x hx
    rcases List.mem_cons.mp hx with rfl | hx'
    · exact le_trans (le_max_right v x) (le_foldl_max l (max v x))
    · exact ih (max v a) x hx'

/-- Every row of the `(target_date, rolled_over)` partition has a sort order
strictly below the `COALESCE(MAX(sort_order), 0) + 1` fresh position. -/
theorem mem_lt_next_sort_order {db : List Task} {t : Task} {td : String} {ro : Bool}
    (ht : t ∈ db) (hd : t.target_date = td) (hr : t.rolled_over = ro) :
    t.sort_order < next_sort_order db td ro := by
  have hmem2 : t.sort_order ∈
      (db.filter (fun u => u.target_date == td && u.rolled_over == ro)).map Task.sort_order :=
    List.mem_map_of_mem _ (List.mem_filter.mpr ⟨ht, by simp [hd, hr]⟩)
  unfold next_sort_order
  rcases hml : (db.filter (fun u => u.target_date == td && u.rolled_over == ro)).map
      Task.sort_order with _ | ⟨v, vs⟩
  · rw [hml] at hmem2; cases hmem2
  · rw [hml] at hmem2
    rw [hml]
    dsimp only
    rcases List.mem_cons.mp hmem2 with heq | hx
    · have hb := le_foldl_max vs v
      omega
    · have hb := mem_le_foldl_max vs v _ hx
      omega

theorem mem_updateById_self {db : List Task} {t : Task} {id : String} {g : Task → Task}
    (ht : t ∈ db) (hne : t.id ≠ id) : t ∈ updateById db id g := by
  unfold updateById
  have h := List.mem_map_of_mem (fun u => if u.id == id then g u else u) ht
  dsimp only at h
  rwa [if_neg (by simp [hne])] at h

theorem mem_updateById_hit {db : List Task} {t : Task} {id : String} {g : Task → Task}
    (ht : t ∈ db) (heq : t.id = id) : g t ∈ updateById db id g := by
  unfold updateById
  have h := List.mem_map_of_mem (fun u => if u.id == id then g u else u) ht
  dsimp only at h
  rwa [if_pos (by simp [heq])] at h

/-- Membership in an updated table comes from an original row, unchanged when
its id differs from the updated one. -/
theorem mem_updateById_src {db : List Task} {x : Task} {id : String} {g : Task → Task}
    (hx : x ∈ updateById db id g) :
    ∃ u ∈ db, x = (if u.id == id then g u else u) := by
  unfold updateById at hx
  obtain ⟨u, hu, heq⟩ := List.mem_map.mp hx
  exact ⟨u, hu, heq.symm⟩

theorem updateById_map_id {db : List Task} {id : String} {g : Task → Task}
    (hg : ∀ u, (g u).id = u.id) :
    (updateById db id g).map Task.id = db.map Task.id := by
  unfold updateById
  rw [List.map_map]
  apply List.map_congr_left
  intro u _
  by_cases h : u.id = id
  · simp only [Function.comp_apply, if_pos (by simp [h] : (u.id == id) = true)]
    exact hg u
  · simp only [Function.comp_apply, if_neg (by simp [h] : ¬(u.id == id) = true)]

/-- With unique ids, `query_row` on an id finds exactly the member row. -/
theorem findById_of_mem {db : List Task} {t : Task} (hnd : (db.map Task.id).Nodup)
    (ht : t ∈ db) : findById db t.id = some t := by
  induction db with
  | nil => cases ht
  | cons a db ih =>
    rw [List.map_cons, List.nodup_cons] at hnd
    rcases List.mem_cons.mp ht with rfl | ht'
    · unfold findById
      exact List.find?_cons_of_pos _ (by simp)
    · have hne : t.id ≠ a.id := by
        intro h
        exact hnd.1 (h ▸ List.mem_map_of_mem Task.id ht')
      unfold findById
      rw [List.find?_cons_of_neg _ (by simp; exact fun h => hne h.symm)]
      exact ih hnd.2 ht'

/-- Characterisation of the rollover loop under unique ids: rows whose id is
not in the selection are untouched; each selected pair's row ends as `rollRow`
of the current row — `target_date = today`, `rolled_over = true`,
`rolled_from_date` set to that row's previous date — with a position at least
the fresh end-of-partition position of the starting table; and the positions
assigned along the selection are strictly increasing. -/
theorem rolloverGo_frame (today now : String) (rs : List (String × String)) :
    ∀ db : List Task, (db.map Task.id).Nodup → (rs.map Prod.fst).Nodup →
      (∀ r ∈ rs, ∃ t ∈ db, r = (t.id, t.target_date)) →
      (∀ t ∈ db, t.id ∉ rs.map Prod.fst →
          findById (rolloverGo today now rs db) t.id = some t) ∧
      (∀ r ∈ rs, ∃ t ∈ db, ∃ p : Int, r = (t.id, t.target_date) ∧
          findById (rolloverGo today now rs db) t.id =
            some (rollRow today now t.target_date p t) ∧
          next_sort_order db today true ≤ p) ∧
      List.Pairwise (fun r r' => ∀ u u',
          findById (rolloverGo today now rs db) r.1 = some u →
          findById (rolloverGo today now rs db) r'.1 = some u' →
          u.sort_order < u'.sort_order) rs := by
  induction rs with
  | nil =>
    intro db hnd _ _
    simp only [rolloverGo]
    exact ⟨fun t ht _ => findById_of_mem hnd ht,
      fun r hr => absurd hr (List.not_mem_nil r), List.Pairwise.nil⟩
  | cons r rs ih =>
    intro db hnd hrsnd hrs
    obtain ⟨t0, ht0, hpair0⟩ := hrs r (List.mem_cons_self r rs)
    subst hpair0
    rw [List.map_cons, List.nodup_cons] at hrsnd
    obtain ⟨hrhead, hrsnd'⟩ := hrsnd
    simp only [rolloverGo]
    have hgid : ∀ u : Task,
        (rollRow today now t0.target_date (next_sort_order db today true) u).id = u.id :=
      fun u => rfl
    have hnd' : ((updateById db t0.id
        (rollRow today now t0.target_date (next_sort_order db today true))).map
          Task.id).Nodup := by
      rw [updateById_map_id hgid]; exact hnd
    have hrs' : ∀ r' ∈ rs, ∃ t ∈ updateById db t0.id
        (rollRow today now t0.target_date (next_sort_order db today true)),
        r' = (t.id, t.target_date) := by
      intro r' hr'
      obtain ⟨t, ht, hp⟩ := hrs r' (List.mem_cons_of_mem _ hr')
      have hne : t.id ≠ t0.id := by
        intro h
        apply hrhead
        have hm := List.mem_map_of_mem Prod.fst hr'
        rw [hp] at hm
        rw [← h]
        exact hm
      exact ⟨t, mem_updateById_self ht hne, hp⟩
    obtain ⟨ih1, ih2, ih3⟩ := ih _ hnd' hrsnd' hrs'
    have hhit : rollRow today now t0.target_date (next_sort_order db today true) t0 ∈
        updateById db t0.id
          (rollRow today now t0.target_date (next_sort_order db today true)) :=
      mem_updateById_hit ht0 rfl
    have hnsmono : next_sort_order db today true <
        next_sort_order (updateById db t0.id
          (rollRow today now t0.target_date (next_sort_order db today true))) today true :=
      mem_lt_next_sort_order hhit rfl rfl
    have hfind0 : findById (rolloverGo today now rs (updateById db t0.id
        (rollRow today now t0.target_date (next_sort_order db today true)))) t0.id =
        some (rollRow today now t0.target_date (next_sort_order db today true) t0) :=
      ih1 _ hhit hrhead
    refine ⟨?_, ?_, ?_⟩
    · intro t ht hnotin
      simp only [List.map_cons, List.mem_cons] at hnotin
      push_neg at hnotin
      obtain ⟨hne0, hnin⟩ := hnotin
      exact ih1 t (mem_updateById_self ht hne0) hnin
    · intro r' hr'
      rcases List.mem_cons.mp hr' with rfl | hr''
      · exact ⟨t0, ht0, next_sort_order db today true, rfl, hfind0, le_refl _⟩
      · obtain ⟨t, htdb', p, hpair, hfind, hle⟩ := ih2 r' hr''
        obtain ⟨u, hu, hueq⟩ := mem_updateById_src htdb'
        have hid : t.id = u.id := by
          rw [hueq]; split <;> rfl
        have hne : u.id ≠ t0.id := by
          intro h
          apply hrhead
          have hm := List.mem_map_of_mem Prod.fst hr''
          rw [hpair] at hm
          dsimp only at hm
          rw [hid, h] at hm
          exact hm
        have hut : t = u := by
          rw [hueq, if_neg (by simp [hne])]
        exact ⟨t, hut ▸ hu, p, hpair, hfind,
          le_trans (le_of_lt hnsmono) hle⟩
    · rw [List.pairwise_cons]
      refine ⟨?_, ih3⟩
      intro r' hr' u u' hfu hfu'
      have hu_eq : u = rollRow today now t0.target_date (next_sort_order db today true) t0 :=
        Option.some.inj (hfu.symm.trans hfind0)
      obtain ⟨t, htdb', p, hpair, hfind, hle⟩ := ih2 r' hr'
      rw [hpair] at hfu'
      have hu'_eq : u' = rollRow today now t.target_date p t :=
        Option.some.inj (hfu'.symm.trans hfind)
      rw [hu_eq, hu'_eq]
      show next_sort_order db today true < p
      exact lt_of_lt_of_le hnsmono hle

theorem overdueRows_map_fst (today : String) (db : List Task) :
    (overdueRows today db).map Prod.fst =
      (db.filter (fun t => strLt t.target_date today && !(t.status == "done"))).map
        Task.id := by
  unfold overdueRows
  rw [List.map_map]
  rfl

theorem overdueRows_fst_nodup (today : String) {db : List Task}
    (hnd : (db.map Task.id).Nodup) : ((overdueRows today db).map Prod.fst).Nodup := by
  rw [overdueRows_map_fst]
  exact List.Nodup.sublist (List.Sublist.map Task.id (List.filter_sublist _)) hnd

/-- C1 (counterexample): the sweep does not preserve `rolled_from_date` across
later-day sweeps.  A task dated 2026-02-04 rolled on 2026-02-05 carries
`rolled_from_date = 2026-02-04` and is marked rolled over; when the next day's
sweep moves it again, its `rolled_from_date` is overwritten with 2026-02-05
instead of keeping the original 2026-02-04. -/
theorem claim_C1_counterexample :
    ((rollover_tasks "2026-02-05" "n1" [overdueTask]).1.map Task.rolled_from_date =
      [some "2026-02-04"]) ∧
    ((rollover_tasks "2026-02-05" "n1" [overdueTask]).1.map Task.rolled_over = [true]) ∧
    ((rollover_tasks "2026-02-06" "n2"
        (rollover_tasks "2026-02-05" "n1" [overdueTask]).1).1.map Task.rolled_from_date =
      [some "2026-02-05"]) := by decide

/-- C1 (amended): under unique ids, one rollover sweep leaves every
non-selected task untouched, and moves every selected task (date strictly
before today, status not `done`) to today with `rolled_over = true` and a
fresh end-of-partition sort order, the assigned positions being strictly
increasing along the selection — but it sets `rolled_from_date` to the task's
current `target_date` on every sweep, overwriting the value a previously
rolled task already carried. -/
theorem claim_C1_amended (today now : String) (db : List Task)
    (hnd : (db.map Task.id).Nodup) :
    (∀ t ∈ db, ¬(strLt t.target_date today = true ∧ t.status ≠ "done") →
        findById (rollover_tasks today now db).1 t.id = some t) ∧
    (∀ t ∈ db, strLt t.target_date today = true → t.status ≠ "done" →
        ∃ p : Int, next_sort_order db today true ≤ p ∧
          findById (rollover_tasks today now db).1 t.id =
            some (rollRow today now t.target_date p t)) ∧
    List.Pairwise (fun r r' => ∀ u u',
        findById (rollover_tasks today now db).1 r.1 = some u →
        findById (rollover_tasks today now db).1 r'.1 = some u' →
        u.sort_order < u'.sort_order) (overdueRows today db) := by
  have hfstnd := overdueRows_fst_nodup today hnd
  have hcorr : ∀ r ∈ overdueRows today db, ∃ t ∈ db, r = (t.id, t.target_date) := by
    intro r hr
    obtain ⟨t, ht, heq, _, _⟩ := (mem_overdueRows_iff today db r).mp hr
    exact ⟨t, ht, heq⟩
  obtain ⟨h1, h2, h3⟩ :=
    rolloverGo_frame today now (overdueRows today db) db hnd hfstnd hcorr
  refine ⟨?_, ?_, h3⟩
  · intro t ht hnsel
    apply h1 t ht
    rw [overdueRows_map_fst]
    intro hmem
    obtain ⟨t', ht'f, hid⟩ := List.mem_map.mp hmem
    rw [List.mem_filter] at ht'f
    obtain ⟨ht', hsel'⟩ := ht'f
    have ht't : t' = t := List.inj_on_of_nodup_map hnd ht' ht hid
    subst ht't
    rw [Bool.and_eq_true, Bool.not_eq_true', beq_eq_false_iff_ne] at hsel'
    exact hnsel hsel'
  · intro t ht hlt hst
    have hmem : (t.id, t.target_date) ∈ overdueRows today db :=
      (mem_overdueRows_iff today db _).mpr ⟨t, ht, rfl, hlt, hst⟩
    obtain ⟨t', ht', p, hpair, hfind, hle⟩ := h2 _ hmem
    injection hpair with hid htd
    have ht't : t' = t := List.inj_on_of_nodup_map hnd ht' ht hid.symm
    subst ht't
    exact ⟨p, hle, hfind⟩

/-- Witness for C1 (amended) on the one-task table `[overdueTask]` swept on
2026-02-05. -/
theorem claim_C1_amended_witness :
    (([overdueTask].map Task.id).Nodup) ∧
    (∃ p : Int, next_sort_order [overdueTask] "2026-02-05" true ≤ p ∧
      findById (rollover_tasks "2026-02-05" "n1" [overdueTask]).1 overdueTask.id =
        some (rollRow "2026-02-05" "n1" overdueTask.target_date p overdueTask)) :=
  ⟨by decide,
    (claim_C1_amended "2026-02-05" "n1" [overdueTask] (by decide)).2.1 overdueTask
      (by decide) (by decide) (by decide)⟩

/-! ### Manual ordering (claim C9) -/

/-- The `ORDER BY sort_order DESC LIMIT 1` scan ("up"): the result comes from
the accumulator or the list, and dominates both. -/
theorem pick_go_up :
    ∀ (l : List Task) (acc : Option Task) (n : Task),
      l.foldl (pickStep true) acc = some n →
      (acc = some n ∨ n ∈ l) ∧
      (∀ u ∈ l, u.sort_order ≤ n.sort_order) ∧
      (∀ b, acc = some b → b.sort_order ≤ n.sort_order) := by
  intro l
  induction l with
  | nil =>
    intro acc n h
    simp only [List.foldl_nil] at h
    refine ⟨Or.inl h, by simp, fun b hb => ?_⟩
    rw [hb] at h
    injection h with h'
    rw [h']
  | cons a l ih =>
    intro acc n h
    rw [List.foldl_cons] at h
    obtain ⟨hd, hall, hacc⟩ := ih (pickStep true acc a) n h
    rcases acc with _ | b
    · have hna : a.sort_order ≤ n.sort_order := hacc a rfl
      refine ⟨?_, ?_, fun b hb => by cases hb⟩
      · rcases hd with h' | h'
        · exact Or.inr (List.mem_cons.mpr (Or.inl (Option.some.inj h').symm))
        · exact Or.inr (List.mem_cons_of_mem a h')
      · intro u hu
        rcases List.mem_cons.mp hu with rfl | hu'
        · exact hna
        · exact hall u hu'
    · by_cases hc : b.sort_order < a.sort_order
      · have hstep : pickStep true (some b) a = some a := by
          simp [pickStep, hc]
        rw [hstep] at hd hacc
        have hna : a.sort_order ≤ n.sort_order := hacc a rfl
        refine ⟨?_, ?_, ?_⟩
        · rcases hd with h' | h'
          · exact Or.inr (List.mem_cons.mpr (Or.inl (Option.some.inj h').symm))
          · exact Or.inr (List.mem_cons_of_mem a h')
        · intro u hu
          rcases List.mem_cons.mp hu with rfl | hu'
          · exact hna
          · exact hall u hu'
        · intro b' hb'
          injection hb' with hb''
          subst hb''
          omega
      · have hstep : pickStep true (some b) a = some b := by
          simp [pickStep, hc]
        rw [hstep] at hd hacc
        have hnb : b.sort_order ≤ n.sort_order := hacc b rfl
        refine ⟨?_, ?_, ?_⟩
        · rcases hd with h' | h'
          · exact Or.inl h'
          · exact Or.inr (List.mem_cons_of_mem a h')
        · intro u hu
          rcases List.mem_cons.mp hu with rfl | hu'
          · omega
          · exact hall u hu'
        · intro b' hb'
          injection hb' with hb''
          subst hb''
          exact hnb

/-- The `ORDER BY sort_order ASC LIMIT 1` scan ("down"): the result comes from
the accumulator or the list, and is below both. -/
theorem pick_go_down :
    ∀ (l : List Task) (acc : Option Task) (n : Task),
      l.foldl (pickStep false) acc = some n →
      (acc = some n ∨ n ∈ l) ∧
      (∀ u ∈ l, n.sort_order ≤ u.sort_order) ∧
      (∀ b, acc = some b → n.sort_order ≤ b.sort_order) := by
  intro l
  induction l with
  | nil =>
    intro acc n h
    simp only [List.foldl_nil] at h
    refine ⟨Or.inl h, by simp, fun b hb => ?_⟩
    rw [hb] at h
    injection h with h'
    rw [h']
  | cons a l ih =>
    intro acc n h
    rw [List.foldl_cons] at h
    obtain ⟨hd, hall, hacc⟩ := ih (pickStep false acc a) n h
    rcases acc with _ | b
    · have hna : n.sort_order ≤ a.sort_order := hacc a rfl
      refine ⟨?_, ?_, fun b hb => by cases hb⟩
      · rcases hd with h' | h'
        · exact Or.inr (List.mem_cons.mpr (Or.inl (Option.some.inj h').symm))
        · exact Or.inr (List.mem_cons_of_mem a h')
      · intro u hu
        rcases List.mem_cons.mp hu with rfl | hu'
        · exact hna
        · exact hall u hu'
    · by_cases hc : a.sort_order < b.sort_order
      · have hstep : pickStep false (some b) a = some a := by
          simp [pickStep, hc]
        rw [hstep] at hd hacc
        have hna : n.sort_order ≤ a.sort_order := hacc a rfl
        refine ⟨?_, ?_, ?_⟩
        · rcases hd with h' | h'
          · exact Or.inr (List.mem_cons.mpr (Or.inl (Option.some.inj h').symm))
          · exact Or.inr (List.mem_cons_of_mem a h')
        · intro u hu
          rcases List.mem_cons.mp hu with rfl | hu'
          · exact hna
          · exact hall u hu'
        · intro b' hb'
          injection hb' with hb''
          subst hb''
          omega
      · have hstep : pickStep false (some b) a = some b := by
          simp [pickStep, hc]
        rw [hstep] at hd hacc
        have hnb : n.sort_order ≤ b.sort_order := hacc b rfl
        refine ⟨?_, ?_, ?_⟩
        · rcases hd with h' | h'
          · exact Or.inl h'
          · exact Or.inr (List.mem_cons_of_mem a h')
        · intro u hu
          rcases List.mem_cons.mp hu with rfl | hu'
          · omega
          · exact hall u hu'
        · intro b' hb'
          injection hb' with hb''
          subst hb''
          exact hnb

/-- The two `UPDATE`s of `move_task` exchange exactly the two rows' sort
orders and touch nothing else. -/
theorem swapOrders_find {db : List Task} {t n : Task} (now : String)
    (hnd : (db.map Task.id).Nodup) (ht : t ∈ db) (hn : n ∈ db) (hne : n.id ≠ t.id) :
    findById (swapOrders db t n now) t.id =
      some { t with sort_order := n.sort_order, updated_at := now } ∧
    findById (swapOrders db t n now) n.id =
      some { n with sort_order := t.sort_order, updated_at := now } ∧
    (∀ u ∈ db, u.id ≠ t.id → u.id ≠ n.id →
        findById (swapOrders db t n now) u.id = some u) := by
  have hg1 : ∀ u : Task,
      ({ u with sort_order := n.sort_order, updated_at := now } : Task).id = u.id :=
    fun u => rfl
  have hg2 : ∀ u : Task,
      ({ u with sort_order := t.sort_order, updated_at := now } : Task).id = u.id :=
    fun u => rfl
  have hnd2 : ((swapOrders db t n now).map Task.id).Nodup := by
    unfold swapOrders
    rw [updateById_map_id hg2, updateById_map_id hg1]
    exact hnd
  refine ⟨?_, ?_, ?_⟩
  · have h1 : ({ t with sort_order := n.sort_order, updated_at := now } : Task) ∈
        updateById db t.id
          (fun u => { u with sort_order := n.sort_order, updated_at := now }) :=
      mem_updateById_hit ht rfl
    have h2 : ({ t with sort_order := n.sort_order, updated_at := now } : Task) ∈
        swapOrders db t n now :=
      mem_updateById_self h1 (Ne.symm hne)
    exact findById_of_mem hnd2 h2
  · have h1 : n ∈ updateById db t.id
        (fun u => { u with sort_order := n.sort_order, updated_at := now }) :=
      mem_updateById_self hn hne
    have h2 : ({ n with sort_order := t.sort_order, updated_at := now } : Task) ∈
        swapOrders db t n now :=
      mem_updateById_hit h1 rfl
    exact findById_of_mem hnd2 h2
  · intro u hu hut hun
    have h1 : u ∈ updateById db t.id
        (fun v => { v with sort_order := n.sort_order, updated_at := now }) :=
      mem_updateById_self hu hut
    have h2 : u ∈ swapOrders db t n now := mem_updateById_self h1 hun
    exact findById_of_mem hnd2 h2

/-- C9: `move_task` on an existing task.  Any direction other than "up" or
"down" fails with the input error and leaves the table unchanged.  For "up"
("down" symmetric): when no same-partition row with strictly smaller (greater)
sort order exists — in particular for the first item of a partition moved
"up" — the call succeeds as a no-op; when the neighbor query returns a row, it
is a same-partition row on the correct side, nearest in sort order, and the
call succeeds having exchanged exactly the two rows' sort orders. -/
theorem claim_C9 (db : List Task) (id direction now : String) (t : Task)
    (hnd : (db.map Task.id).Nodup) (hfind : findById db id = some t) :
    (direction ≠ "up" → direction ≠ "down" →
        move_task db id direction now = (Except.error "Invalid move direction", db)) ∧
    (direction = "up" →
        (∀ u ∈ db, u.target_date = t.target_date → u.rolled_over = t.rolled_over →
            u.id ≠ t.id → ¬ u.sort_order < t.sort_order) →
        move_task db id direction now = (Except.ok (), db)) ∧
    (direction = "down" →
        (∀ u ∈ db, u.target_date = t.target_date → u.rolled_over = t.rolled_over →
            u.id ≠ t.id → ¬ t.sort_order < u.sort_order) →
        move_task db id direction now = (Except.ok (), db)) ∧
    (∀ n, direction = "up" → pickNeighbor db t true = some n →
        n ∈ db ∧ n.id ≠ t.id ∧ n.target_date = t.target_date ∧
        n.rolled_over = t.rolled_over ∧ n.sort_order < t.sort_order ∧
        (∀ u ∈ db, u.target_date = t.target_date → u.rolled_over = t.rolled_over →
            u.id ≠ t.id → u.sort_order < t.sort_order → u.sort_order ≤ n.sort_order) ∧
        move_task db id direction now = (Except.ok (), swapOrders db t n now) ∧
        findById (swapOrders db t n now) t.id =
          some { t with sort_order := n.sort_order, updated_at := now } ∧
        findById (swapOrders db t n now) n.id =
          some { n with sort_order := t.sort_order, updated_at := now } ∧
        (∀ u ∈ db, u.id ≠ t.id → u.id ≠ n.id →
            findById (swapOrders db t n now) u.id = some u)) ∧
    (∀ n, direction = "down" → pickNeighbor db t false = some n →
        n ∈ db ∧ n.id ≠ t.id ∧ n.target_date = t.target_date ∧
        n.rolled_over = t.rolled_over ∧ t.sort_order < n.sort_order ∧
        (∀ u ∈ db, u.target_date = t.target_date → u.rolled_over = t.rolled_over →
            u.id ≠ t.id → t.sort_order < u.sort_order → n.sort_order ≤ u.sort_order) ∧
        move_task db id direction now = (Except.ok (), swapOrders db t n now) ∧
        findById (swapOrders db t n now) t.id =
          some { t with sort_order := n.sort_order, updated_at := now } ∧
        findById (swapOrders db t n now) n.id =
          some { n with sort_order := t.sort_order, updated_at := now } ∧
        (∀ u ∈ db, u.id ≠ t.id → u.id ≠ n.id →
            findById (swapOrders db t n now) u.id = some u)) := by
  have htmem : t ∈ db := List.mem_of_find?_eq_some hfind
  refine ⟨?_, ?_, ?_, ?_, ?_⟩
  · intro h1 h2
    simp only [move_task, hfind]
    rw [if_neg h1, if_neg h2]
  · rintro rfl hmin
    have hfilt : db.filter (fun u =>
        u.target_date == t.target_date && u.rolled_over == t.rolled_over &&
        !(u.id == t.id) &&
        (if true then decide (u.sort_order < t.sort_order)
         else decide (t.sort_order < u.sort_order))) = [] := by
      rw [List.filter_eq_nil_iff]
      intro u hu hpred
      simp at hpred
      exact hmin u hu hpred.1.1.1 hpred.1.1.2 hpred.1.2 hpred.2
    have hpick : pickNeighbor db t true = none := by
      unfold pickNeighbor
      rw [hfilt]
      rfl
    unfold move_task
    rw [hfind]
    dsimp only
    rw [if_pos rfl, hpick]
  · rintro rfl hmin
    have hfilt : db.filter (fun u =>
        u.target_date == t.target_date && u.rolled_over == t.rolled_over &&
        !(u.id == t.id) &&
        (if false then decide (u.sort_order < t.sort_order)
         else decide (t.sort_order < u.sort_order))) = [] := by
      rw [List.filter_eq_nil_iff]
      intro u hu hpred
      simp at hpred
      exact hmin u hu hpred.1.1.1 hpred.1.1.2 hpred.1.2 hpred.2
    have hpick : pickNeighbor db t false = none := by
      unfold pickNeighbor
      rw [hfilt]
      rfl
    unfold move_task
    rw [hfind]
    dsimp only
    rw [if_neg (by decide), if_pos rfl, hpick]
  · rintro n rfl hpick
    have hpick' := hpick
    unfold pickNeighbor at hpick'
    obtain ⟨hd, hall, _⟩ := pick_go_up _ none n hpick'
    have hnmem : n ∈ db.filter (fun u =>
        u.target_date == t.target_date && u.rolled_over == t.rolled_over &&
        !(u.id == t.id) &&
        (if true then decide (u.sort_order < t.sort_order)
         else decide (t.sort_order < u.sort_order))) := by
      rcases hd with h' | h'
      · cases h'
      · exact h'
    rw [List.mem_filter] at hnmem
    obtain ⟨hndb, hprops⟩ := hnmem
    simp at hprops
    obtain ⟨⟨⟨htd, hro⟩, hnid⟩, hlt⟩ := hprops
    obtain ⟨hswt, hswn, hswu⟩ := swapOrders_find now hnd htmem hndb hnid
    refine ⟨hndb, hnid, htd, hro, hlt, ?_, ?_, hswt, hswn, hswu⟩
    · intro u hu hutd huro huid hus
      have humem : u ∈ db.filter (fun v =>
          v.target_date == t.target_date && v.rolled_over == t.rolled_over &&
          !(v.id == t.id) &&
          (if true then decide (v.sort_order < t.sort_order)
           else decide (t.sort_order < v.sort_order))) := by
        rw [List.mem_filter]
        refine ⟨hu, ?_⟩
        simp [hutd, huro, huid, hus]
      exact hall u humem
    · unfold move_task
      rw [hfind]
      dsimp only
      rw [if_pos rfl, hpick]
  · rintro n rfl hpick
    have hpick' := hpick
    unfold pickNeighbor at hpick'
    obtain ⟨hd, hall, _⟩ := pick_go_down _ none n hpick'
    have hnmem : n ∈ db.filter (fun u =>
        u.target_date == t.target_date && u.rolled_over == t.rolled_over &&
        !(u.id == t.id) &&
        (if false then decide (u.sort_order < t.sort_order)
         else decide (t.sort_order < u.sort_order))) := by
      rcases hd with h' | h'
      · cases h'
      · exact h'
    rw [List.mem_filter] at hnmem
    obtain ⟨hndb, hprops⟩ := hnmem
    simp at hprops
    obtain ⟨⟨⟨htd, hro⟩, hnid⟩, hlt⟩ := hprops
    obtain ⟨hswt, hswn, hswu⟩ := swapOrders_find now hnd htmem hndb hnid
    refine ⟨hndb, hnid, htd, hro, hlt, ?_, ?_, hswt, hswn, hswu⟩
    · intro u hu hutd huro huid hus
      have humem : u ∈ db.filter (fun v =>
          v.target_date == t.target_date && v.rolled_over == t.rolled_over &&
          !(v.id == t.id) &&
          (if false then decide (v.sort_order < t.sort_order)
           else decide (t.sort_order < v.sort_order))) := by
        rw [List.mem_filter]
        refine ⟨hu, ?_⟩
        simp [hutd, huro, huid, hus]
      exact hall u humem
    · unfold move_task
      rw [hfind]
      dsimp only
      rw [if_neg (by decide), if_pos rfl, hpick]

/-- Witness for C9 on the one-task table: an invalid direction errors without
touching the table, and moving the partition's only (hence first) item "up"
is a successful no-op. -/
theorem claim_C9_witness :
    move_task [overdueTask] "a" "sideways" "n" =
      (Except.error "Invalid move direction", [overdueTask]) ∧
    move_task [overdueTask] "a" "up" "n" = (Except.ok (), [overdueTask]) :=
  ⟨(claim_C9 [overdueTask] "a" "sideways" "n" overdueTask (by decide) (by decide)).1
      (by decide) (by decide),
    (claim_C9 [overdueTask] "a" "up" "n" overdueTask (by decide) (by decide)).2.1 rfl
      (by decide)⟩

/-! ### Migration runner (claim C8) -/

/-- Run of the migration loop when the `tags` column already exists: it never
fails, never executes the version-8 script, records every listed version, and
keeps previously recorded versions. -/
theorem runMigrationsGo_hasTags :
    ∀ (vs : List Int) (s : Schema), s.hasTags = true →
      ∃ s', runMigrationsGo vs s = .ok s' ∧ s'.hasTags = true ∧
        (∀ v ∈ s'.executed, v ∈ s.executed ∨ (v ∈ vs ∧ v ≠ 8)) ∧
        (∀ v ∈ vs, v ∈ s'.applied) ∧
        (∀ v ∈ s.applied, v ∈ s'.applied) := by
  intro vs
  induction vs with
  | nil =>
    intro s ht
    exact ⟨s, rfl, ht, fun v hv => Or.inl hv,
      fun v hv => absurd hv (List.not_mem_nil v), fun v hv => hv⟩
  | cons v vs ih =>
    intro s ht
    by_cases hv : v ∈ s.applied
    · obtain ⟨s', h1, h2, h3, h4, h5⟩ := ih s ht
      refine ⟨s', ?_, h2, ?_, ?_, h5⟩
      · simp only [runMigrationsGo]
        rw [if_pos hv]
        exact h1
      · intro w hw
        rcases h3 w hw with h' | h'
        · exact Or.inl h'
        · exact Or.inr ⟨List.mem_cons_of_mem v h'.1, h'.2⟩
      · intro w hw
        rcases List.mem_cons.mp hw with rfl | hw'
        · exact h5 w hv
        · exact h4 w hw'
    · by_cases h8 : v = 8
      · obtain ⟨s', h1, h2, h3, h4, h5⟩ := ih { s with applied := s.applied ++ [v] } ht
        refine ⟨s', ?_, h2, ?_, ?_, ?_⟩
        · simp only [runMigrationsGo]
          rw [if_neg hv, if_pos ⟨h8, ht⟩]
          exact h1
        · intro w hw
          rcases h3 w hw with h' | h'
          · exact Or.inl h'
          · exact Or.inr ⟨List.mem_cons_of_mem v h'.1, h'.2⟩
        · intro w hw
          rcases List.mem_cons.mp hw with rfl | hw'
          · exact h5 w (by simp)
          · exact h4 w hw'
        · intro w hw
          exact h5 w (by simp [hw])
      · obtain ⟨s', h1, h2, h3, h4, h5⟩ :=
          ih { s with executed := s.executed ++ [v], applied := s.applied ++ [v] } ht
        refine ⟨s', ?_, h2, ?_, ?_, ?_⟩
        · simp only [runMigrationsGo]
          rw [if_neg hv, if_neg (fun hc => h8 hc.1)]
          have hddl : runDDL v s = .ok { s with executed := s.executed ++ [v] } := by
            unfold runDDL
            rw [if_neg h8]
          rw [hddl]
          exact h1
        · intro w hw
          rcases h3 w hw with h' | h'
          · rcases List.mem_append.mp h' with h'' | h''
            · exact Or.inl h''
            · rw [List.mem_singleton] at h''
              subst h''
              exact Or.inr ⟨List.mem_cons_self w vs, h8⟩
          · exact Or.inr ⟨List.mem_cons_of_mem v h'.1, h'.2⟩
        · intro w hw
          rcases List.mem_cons.mp hw with rfl | hw'
          · exact h5 w (by simp)
          · exact h4 w hw'
        · intro w hw
          exact h5 w (by simp [hw])

/-- C8: opening a store whose `tasks` table already has the `tags` column but
whose `schema_migrations` has no version-8 row succeeds without a
duplicate-column failure: version 8 is recorded as applied while its DDL is
never executed, and the column stays present. -/
theorem claim_C8 (s : Schema) (ht : s.hasTags = true) (ha : (8 : Int) ∉ s.applied)
    (he : (8 : Int) ∉ s.executed) :
    ∃ s', open_db s = .ok s' ∧ (8 : Int) ∈ s'.applied ∧ (8 : Int) ∉ s'.executed ∧
      s'.hasTags = true := by
  obtain ⟨s', h1, h2, h3, h4, h5⟩ := runMigrationsGo_hasTags migrationVersions s ht
  refine ⟨s', ?_, ?_, ?_, h2⟩
  · unfold open_db run_migrations
    rw [h1]
    dsimp only
    unfold ensure_task_tags_schema
    rw [if_pos h2]
  · exact h4 8 (by decide)
  · intro hmem
    rcases h3 8 hmem with h' | h'
    · exact he h'
    · exact h'.2 rfl

/-- Witness for C8: a store with versions 1–7 recorded, the `tags` column
present, and no version-8 row. -/
theorem claim_C8_witness :
    ∃ s', open_db ⟨[1, 2, 3, 4, 5, 6, 7], true, []⟩ = .ok s' ∧
      (8 : Int) ∈ s'.applied ∧ (8 : Int) ∉ s'.executed ∧ s'.hasTags = true :=
  claim_C8 ⟨[1, 2, 3, 4, 5, 6, 7], true, []⟩ rfl (by decide) (by decide)

/-! ### Recurrence generation dedup (claim C4) -/

/-- C4: recurrence generation is exactly-once.  For any completed recurring
task, the sweep step inserts a next occurrence exactly when no existing
recurring task already carries the same `(title, recurrence_type,
recurrence_interval, recurrence_weekdays, target_date)` signature.  In the
concrete scenario — one `done` daily task with interval 1 on 2026-02-06 — the
sweep produces exactly one new task `(2026-02-07, todo)`, and running the
sweep a second time changes nothing. -/
theorem claim_C4 (st : Store) (task : Task) (today : Date) (now : String) (fuel : Nat)
    (base : Date) (hty : task.recurrence_type.isNone = false)
    (hdone : task.status = "done")
    (hparse : parse_date task.target_date = some base) :
    (has_recurring_occurrence st.tasks task
        (format_date (next_occurrence_date task base)) = true →
      processTask today now fuel st task = some st) ∧
    (has_recurring_occurrence st.tasks task
        (format_date (next_occurrence_date task base)) = false →
      processTask today now fuel st task =
        some (insert_next_occurrence now task
          (format_date (next_occurrence_date task base)) st)) ∧
    ((ensure_recurrences ⟨2026, 2, 6⟩ "n1" 1 scenarioStore).map
        (fun st1 => st1.tasks.map (fun t => (t.target_date, t.status))) =
      some [("2026-02-06", "done"), ("2026-02-07", "todo")]) ∧
    ((ensure_recurrences ⟨2026, 2, 6⟩ "n1" 1 scenarioStore).bind
        (ensure_recurrences ⟨2026, 2, 6⟩ "n2" 1) =
      ensure_recurrences ⟨2026, 2, 6⟩ "n1" 1 scenarioStore) := by
  have hred : processTask today now fuel st task =
      (if has_recurring_occurrence st.tasks task
          (format_date (next_occurrence_date task base)) then some st
       else some (insert_next_occurrence now task
          (format_date (next_occurrence_date task base)) st)) := by
    unfold processTask
    rw [if_neg (by simp [hty]), if_pos (by simp [hdone]), hparse]
  refine ⟨?_, ?_, by decide, by decide⟩
  · intro hg
    rw [hred, if_pos hg]
  · intro hg
    rw [hred, if_neg (by simp [hg])]

/-- Witness for C4 on the scenario store and its completed daily task. -/
theorem claim_C4_witness :
    doneDailyTask.status = "done" ∧
    parse_date doneDailyTask.target_date = some ⟨2026, 2, 6⟩ ∧
    ((ensure_recurrences ⟨2026, 2, 6⟩ "n1" 1 scenarioStore).map
        (fun st1 => st1.tasks.map (fun t => (t.target_date, t.status))) =
      some [("2026-02-06", "done"), ("2026-02-07", "todo")]) :=
  ⟨by decide, by decide,
    (claim_C4 scenarioStore doneDailyTask ⟨2026, 2, 6⟩ "n1" 1 ⟨2026, 2, 6⟩
      (by decide) (by decide) (by decide)).2.2.1⟩

end DayRally
